import Mathlib

/-!
cachebot: confirmation-and-batched-dispatch engine.

A shallow embedding of `main.go`.  Go strings are modelled as lists of
characters (`Str`), the package-level variables `clearPending`,
`cacheQueue` and `clearWaiting` as an explicit state record, and
`api.PostMessage` and the calls of `do` as entries appended to the list of
effects.  The outcome of a purge call is an input of the flush tick.
-/

namespace Cachebot

/-- Go `string`, as the list of its characters. -/
abbrev Str := List Char

/-! ## The `strings` functions used by the program -/

/-- Go `strings.HasPrefix(s, p)`. -/
def hasPrefix (s p : Str) : Bool := p.isPrefixOf s

/-- Go `strings.HasSuffix(s, p)`. -/
def hasSuffix (s p : Str) : Bool := p.reverse.isPrefixOf s.reverse

/-- Go `strings.TrimPrefix(s, p)`: `s` without the leading `p`, or `s` itself. -/
def trimPrefix (s p : Str) : Str :=
  if hasPrefix s p then s.drop p.length else s

/-- Go `strings.TrimSuffix(s, p)`: `s` without the trailing `p`, or `s` itself. -/
def trimSuffix (s p : Str) : Str :=
  if hasSuffix s p then s.take (s.length - p.length) else s

/-- Go `strings.Contains(s, sub)`. -/
def contains (s sub : Str) : Bool := s.tails.any (fun t => sub.isPrefixOf t)

/-- Go `strings.Join(xs, sep)`. -/
def join (xs : List Str) (sep : Str) : Str := sep.intercalate xs

/-- Go `strings.ToLower(s)`.  Only the letters `A`..`Z` are modelled as
changing; the program only compares the result with `help`, `yes` and `no`,
and no character outside `A`..`Z` lowers to a letter of these words. -/
def toLower (s : Str) : Str := s.map Char.toLower

/-! ## Configuration -/

/-- The fields of `config` read by the engine. -/
structure config where
  CloudflareToken : Str
  CloudflareZone : Str
  TriggerPhrase : Str
  SlackToken : Str
  URLBases : List Str
  URLSuffixes : List Str
  RestrictedChannels : List Str
  AuthorisedUsers : List Str

/-! ## `filesFromURI` -/

/-- The first loop of `filesFromURI`:
`for _, b := range cfg.URLBases { uri = strings.TrimPrefix(uri, b) }`. -/
def stripBases (bases : List Str) (uri : Str) : Str :=
  bases.foldl trimPrefix uri

/-- The inner loop of `filesFromURI`: one URL per suffix, joined with `/`
unless `uri` already ends in `/`. -/
def suffixURLs (suffixes : List Str) (b uri : Str) : List Str :=
  suffixes.map (fun suffix =>
    if !hasSuffix uri ['/'] then b ++ uri ++ ['/'] ++ suffix else b ++ uri ++ suffix)

/-- The second loop of `filesFromURI`: for each base, `b+uri` followed by
its suffix variants. -/
def expandBases (bases suffixes : List Str) (uri : Str) : List Str :=
  bases.foldl (fun res b => res ++ [b ++ uri] ++ suffixURLs suffixes b uri) []

/-- Go `filesFromURI`. -/
def filesFromURI (cfg : config) (uri : Str) : List Str :=
  let uri := trimSuffix uri [',']
  let uri := if !hasPrefix uri ['/'] then '/' :: uri else uri
  let uri := stripBases cfg.URLBases uri
  expandBases cfg.URLBases cfg.URLSuffixes uri

/-! ## The pattern `re` -/

/-- The class `\s` of Go regular expressions: tab, newline, form feed,
carriage return and space. -/
def isSpace (c : Char) : Bool :=
  c = '\t' || c = '\n' || c = Char.ofNat 12 || c = '\r' || c = ' '

/-- The class `[^\s|>?]`. -/
def isPathChar (c : Char) : Bool :=
  !(isSpace c || c = '|' || c = '>' || c = '?')

/-- The class `[^/]`. -/
def isHostChar (c : Char) : Bool := !(c = '/')

/-- A literal at the start of `s`: the text after it. -/
def matchLit (lit s : Str) : Option Str :=
  if lit.isPrefixOf s then some (s.drop lit.length) else none

/-- The optional letter of `https?`, taken when present. -/
def skipS : Str → Str
  | 's' :: t => t
  | t => t

/-- The group `(?:https?://[^/]+)` at the start of `s`: the text after it.
The greedy run `[^/]+` stops at the first `/` or at the end of the text;
a shorter run would be followed by a character that is not `/`, where the
rest of the pattern cannot match. -/
def matchHost (s : Str) : Option Str :=
  match matchLit "http".toList s with
  | none => none
  | some r1 =>
    match matchLit "://".toList (skipS r1) with
    | none => none
    | some r2 => if r2.takeWhile isHostChar = [] then none else some (r2.dropWhile isHostChar)

/-- The group `(/[^\s|>?]*)` at the start of `s`: the captured text and the
text after it. -/
def matchPath : Str → Option (Str × Str)
  | '/' :: t => some ('/' :: t.takeWhile isPathChar, t.dropWhile isPathChar)
  | _ => none

/-- The pattern `(?:https?://[^/]+)?(/[^\s|>?]*)` anchored at the start of
`s`: the captured path and the text after the match.  The optional group is
tried first; when the pattern does not match with it, the path alone is
tried. -/
def matchHere (s : Str) : Option (Str × Str) :=
  match (matchHost s).bind matchPath with
  | some r => some r
  | none => matchPath s

/-- The leftmost match of `re` in `s`: the submatch list `[whole, group 1]`
and the text after the match. -/
def findFirst : Str → Option (List Str × Str)
  | [] => none
  | c :: cs =>
    match matchHere (c :: cs) with
    | some (cap, rest) => some ([(c :: cs).take ((c :: cs).length - rest.length), cap], rest)
    | none => findFirst cs

/-- Successive leftmost matches, each search starting where the previous
match ended; every match consumes at least one character. -/
def findAllFuel : Nat → Str → List (List Str)
  | 0, _ => []
  | n + 1, s =>
    match findFirst s with
    | none => []
    | some (m, rest) => m :: findAllFuel n rest

/-- Go `re.FindAllStringSubmatch(s, -1)`. -/
def FindAllStringSubmatch (s : Str) : List (List Str) := findAllFuel s.length s

/-! ## State of the engine -/

/-- Go `cacheClearPending`; `Created` is the clock reading of `time.Now()`. -/
structure cacheClearPending where
  Everything : Bool
  URIs : List Str
  Created : Nat
  User : Str
  Channel : Str
  deriving DecidableEq

/-- Go `cloudflareRequest`. -/
structure cloudflareRequest where
  PurgeEverything : Bool
  Files : List Str
  deriving DecidableEq

/-- An action on an external collaborator: `api.PostMessage(channel, text)`,
or the call `v.do()` of the purge executor with the request it builds. -/
inductive Effect where
  | post (channel text : Str)
  | purge (v : cacheClearPending) (req : cloudflareRequest)
  deriving DecidableEq

/-- The fields of `*slack.MessageEvent` read by the handler. -/
structure MessageEvent where
  User : Str
  Channel : Str
  Text : Str
  deriving DecidableEq

/-- The package-level values fixed before the event loop starts. -/
structure Env where
  cfg : config
  botUserID : Str
  restrictedChannels : List Str
  authorisedUsers : List Str

/-- The mutable package-level variables, and the actions performed so far.
`cacheQueue` holds the values sent on the channel and not yet received, in
order (its capacity of 10 only delays a send). -/
structure State where
  clearPending : Str → Option cacheClearPending
  cacheQueue : List cacheClearPending
  clearWaiting : List cacheClearPending
  effects : List Effect

/-- Go `helpMessage`. -/
def helpMessage : Str :=
  ("Here are some examples of how to clear the cache:\n" ++
   "`clear cache`\n" ++
   "`clear cache for /some/uri`\n" ++
   "`clear cache for /some/uri and /another/uri`\n" ++
   "If I ask you to confirm, reply with `yes` or `no`!").toList

/-- The trigger phrase: `cfg.TriggerPhrase`, or `clear cache` when unset. -/
def trigger (cfg : config) : Str :=
  if cfg.TriggerPhrase ≠ [] then cfg.TriggerPhrase else "clear cache".toList

/-- Go `api.PostMessage(channel, slack.MsgOptionText(message, false), ...)`. -/
def PostMessage (s : State) (channel message : Str) : State :=
  { s with effects := s.effects ++ [Effect.post channel message] }

/-- Go `clearPending[user] = p`. -/
def setPending (m : Str → Option cacheClearPending) (user : Str) (p : cacheClearPending) :
    Str → Option cacheClearPending :=
  fun u => if u = user then some p else m u

/-- Go `delete(clearPending, user)`. -/
def deletePending (m : Str → Option cacheClearPending) (user : Str) :
    Str → Option cacheClearPending :=
  fun u => if u = user then none else m u

/-- The loop over the matches in the handler:
`if len(match) > 1 { uris = append(uris, filesFromURI(match[1])...) }`. -/
def collectURIs (cfg : config) (m : List (List Str)) : List Str :=
  m.foldl (fun uris mtch =>
    match mtch with
    | _ :: g :: _ => uris ++ filesFromURI cfg g
    | _ => uris) []

/-- The text of the rejection for a restricted channel. -/
def restrictedMessage (user : Str) : Str :=
  "<@".toList ++ user ++ "> Sorry, cachebot is restricted to authorised users".toList

/-- The text of the over-limit rejection. -/
def tooMuchMessage (user : Str) : Str :=
  "<@".toList ++ user ++ "> That's too much for one request - try again with less URIs".toList

/-- One iteration of the event loop of `slackBot` for a `*slack.MessageEvent`
received at clock reading `now`. -/
def handleMessage (env : Env) (now : Nat) (s : State) (ev : MessageEvent) : State :=
  if ev.User = env.botUserID then s
  else
    let restricted := env.restrictedChannels.contains ev.Channel
    let authorised := env.authorisedUsers.contains ev.User
    if restricted && !authorised then
      PostMessage s ev.Channel (restrictedMessage ev.User)
    else if toLower ev.Text = "help".toList then
      PostMessage s ev.Channel ("<@".toList ++ ev.User ++ "> ".toList ++ helpMessage)
    else if toLower ev.Text = "yes".toList then
      match s.clearPending ev.User with
      | some p =>
        let s1 := PostMessage s ev.Channel
          ("<@".toList ++ ev.User ++ "> Ok, I'll let you know when it's done.".toList)
        { s1 with cacheQueue := s1.cacheQueue ++ [p],
                  clearPending := deletePending s1.clearPending ev.User }
      | none => s
    else if toLower ev.Text = "no".toList then
      match s.clearPending ev.User with
      | some _ =>
        let s1 := PostMessage s ev.Channel
          ("<@".toList ++ ev.User ++ "> Ok, I'll cancel that!".toList)
        { s1 with clearPending := deletePending s1.clearPending ev.User }
      | none => s
    else if contains ev.Text (trigger env.cfg) then
      let m := FindAllStringSubmatch ev.Text
      if m.length = 0 then
        let s1 := PostMessage s ev.Channel
          ("<@".toList ++ ev.User ++ ("> I'm about to clear the entire cache, are you sure?\n" ++
            "*Warning*: This will cause a spike in traffic to the production environment!").toList)
        let p : cacheClearPending :=
          { Everything := true, URIs := [], Created := now, User := ev.User,
            Channel := ev.Channel }
        { s1 with clearPending := setPending s1.clearPending ev.User p }
      else
        let uris := collectURIs env.cfg m
        if uris.length > 30 then
          PostMessage s ev.Channel (tooMuchMessage ev.User)
        else
          let f := "`".toList ++ join uris "`\n`".toList ++ "`".toList
          let s1 := PostMessage s ev.Channel
            ("<@".toList ++ ev.User ++
              "> I'm about to clear the following cache items, are you sure?\n".toList ++ f)
          let p : cacheClearPending :=
            { Everything := false, URIs := uris, Created := now, User := ev.User,
              Channel := ev.Channel }
          { s1 with clearPending := setPending s1.clearPending ev.User p }
    else s

/-- Go `case q := <-cacheQueue: clearWaiting = append(clearWaiting, q)`:
the dispatcher receives the oldest value of the channel, if there is one. -/
def receive (s : State) : State :=
  match s.cacheQueue with
  | [] => s
  | q :: rest => { s with cacheQueue := rest, clearWaiting := s.clearWaiting ++ [q] }

/-- The dispatcher receives `n` times. -/
def receiveN : Nat → State → State
  | 0, s => s
  | n + 1, s => receiveN n (receive s)

/-! ## The purge executor `do` -/

/-- The first lines of `do`: the request built from the job. -/
def buildRequest (c : cacheClearPending) : cloudflareRequest :=
  if c.Everything then { PurgeEverything := true, Files := [] }
  else { PurgeEverything := false, Files := c.URIs }

/-- The JSON object written by `json.Marshal(&cfReq)`: a key is present
only when its value is not empty (`omitempty`). -/
structure purgeBody where
  purge_everything : Option Bool
  files : Option (List Str)
  deriving DecidableEq

/-- Go `json.Marshal(&cfReq)`, which cannot fail on a `cloudflareRequest`. -/
def marshal (r : cloudflareRequest) : purgeBody :=
  { purge_everything := if r.PurgeEverything then some true else none,
    files := if r.Files.length = 0 then none else some r.Files }

/-- What the libraries and the CDN answer to one call of `do`: the error of
`http.NewRequest`, of `http.DefaultClient.Do`, of `io.ReadAll`, of
`json.Unmarshal`, or the `success` field of the decoded response. -/
inductive Outcome where
  | createFailed (err : Str)
  | sendFailed (err : Str)
  | readFailed (err : Str)
  | parseFailed (err : Str)
  | response (success : Bool)
  deriving DecidableEq

/-- Go `(c cacheClearPending) do()`: the text of the returned error, or
`none` for `nil`. -/
def doPurge (_c : cacheClearPending) : Outcome → Option Str
  | .createFailed err => some ("error creating request for CloudFlare: ".toList ++ err)
  | .sendFailed err => some ("error sending request to CloudFlare: ".toList ++ err)
  | .readFailed err => some ("error reading response from CloudFlare: ".toList ++ err)
  | .parseFailed err => some ("error parsing response from CloudFlare: ".toList ++ err)
  | .response false => some "CloudFlare returned an unsuccessful response".toList
  | .response true => none

/-! ## The dispatcher `cacheDeleter` -/

/-- The report of a failed purge. -/
def failureMessage (v : cacheClearPending) (err : Str) : Str :=
  "<@".toList ++ v.User ++ "> Sorry, that didn't work...\n*Error*: ".toList ++ err

/-- The report of a purge that returned no error. -/
def doneMessage (v : cacheClearPending) : Str :=
  if v.URIs.length > 0 then
    "<@".toList ++ v.User ++ "> That's done, the following items have been cleared:\n".toList
      ++ ("`".toList ++ join v.URIs "`\n`".toList ++ "`".toList)
  else
    "<@".toList ++ v.User ++ "> That's done, the entire cache has been cleared".toList

/-- The body of the loop `for _, v := range clearWaiting`: `v.do()` is
called, then its outcome is reported to the job's channel. -/
def flushJob (v : cacheClearPending) (o : Outcome) : List Effect :=
  [Effect.purge v (buildRequest v),
   match doPurge v o with
   | some err => Effect.post v.Channel (failureMessage v err)
   | none => Effect.post v.Channel (doneMessage v)]

/-- The loop `for _, v := range clearWaiting`; `out i` is the outcome of the
call of `do` for the job at index `i`. -/
def flushJobs (out : Nat → Outcome) : Nat → List cacheClearPending → List Effect
  | _, [] => []
  | i, v :: vs => flushJob v (out i) ++ flushJobs out (i + 1) vs

/-- Go `case <-t.C:` of `cacheDeleter`: one flush tick. -/
def tick (out : Nat → Outcome) (s : State) : State :=
  if s.clearWaiting.length > 0 then
    { s with effects := s.effects ++ flushJobs out 0 s.clearWaiting, clearWaiting := [] }
  else s

/-- An event of the dispatcher: the case `q := <-cacheQueue` with the value
received, or a flush tick with the outcomes of its purge calls. -/
inductive DEvent where
  | enqueue (q : cacheClearPending)
  | tick (out : Nat → Outcome)

/-- One iteration of the loop of `cacheDeleter`. -/
def dispatch (s : State) : DEvent → State
  | .enqueue q => { s with clearWaiting := s.clearWaiting ++ [q] }
  | .tick out => tick out s

/-- The dispatcher handles the events in order. -/
def dispatchAll (s : State) (es : List DEvent) : State := es.foldl dispatch s

/-- The jobs on which `do` was called, in order of the calls. -/
def executed (effects : List Effect) : List cacheClearPending :=
  effects.filterMap (fun e =>
    match e with
    | .purge v _ => some v
    | .post _ _ => none)

/-! ## The two loops together -/

/-- An event of the whole engine: a chat message handled at clock reading
`now`, the dispatcher receiving from the channel, or a flush tick. -/
inductive SysEvent where
  | message (now : Nat) (ev : MessageEvent)
  | receive
  | tick (out : Nat → Outcome)

/-- One step of the engine. -/
def sysStep (env : Env) (s : State) : SysEvent → State
  | .message now ev => handleMessage env now s ev
  | .receive => receive s
  | .tick out => tick out s

/-- The engine handles the events in order. -/
def sysRun (env : Env) (s : State) (es : List SysEvent) : State := es.foldl (sysStep env) s

/-! ## Vocabulary of the specification -/

/-- The authorisation check refuses the message: it was sent in a restricted
channel by a user who is not authorised. -/
def refused (env : Env) (ev : MessageEvent) : Bool :=
  env.restrictedChannels.contains ev.Channel && !env.authorisedUsers.contains ev.User

/-- A permitted sender: not the bot itself, and not refused by the
authorisation check. -/
def permitted (env : Env) (ev : MessageEvent) : Prop :=
  ev.User ≠ env.botUserID ∧ refused env ev = false

instance (env : Env) (ev : MessageEvent) : Decidable (permitted env ev) :=
  inferInstanceAs (Decidable (ev.User ≠ env.botUserID ∧ refused env ev = false))

/-- The whole text is one of the commands `help`, `yes`, `no`, in any letter
case. -/
def isCommand (text : Str) : Bool :=
  toLower text = "help".toList || toLower text = "yes".toList || toLower text = "no".toList

/-- The pending store with no entry. -/
def emptyPending : Str → Option cacheClearPending := fun _ => none

/-- The state at start-up: nothing pending, nothing queued, nothing done. -/
def initState : State :=
  { clearPending := emptyPending, cacheQueue := [], clearWaiting := [], effects := [] }

/-- The request derived from one trigger message alone: everything when the
text has no path token, the derived URI list otherwise. -/
def derivedRequest (cfg : config) (now : Nat) (ev : MessageEvent) : cacheClearPending :=
  if FindAllStringSubmatch ev.Text = [] then
    { Everything := true, URIs := [], Created := now, User := ev.User, Channel := ev.Channel }
  else
    { Everything := false, URIs := collectURIs cfg (FindAllStringSubmatch ev.Text),
      Created := now, User := ev.User, Channel := ev.Channel }

/-- A path-like token of a message: the bare path `/p`, or the URL
`http://host/p` (`https://host/p` when `secure`). -/
inductive PathToken where
  | bare (p : Str)
  | url (secure : Bool) (host p : Str)

/-- The text of a token. -/
def PathToken.text : PathToken → Str
  | .bare p => '/' :: p
  | .url secure host p =>
    (if secure then "https://".toList else "http://".toList) ++ host ++ '/' :: p

/-- The `/path` portion of a token: the token itself for a bare path, the
URL without scheme and host otherwise. -/
def PathToken.path : PathToken → Str
  | .bare p => '/' :: p
  | .url _ _ p => '/' :: p

/-- A token has no whitespace and none of `|`, `>`, `?`; the host of a URL
is not empty and has no `/`. -/
def PathToken.wellFormed : PathToken → Bool
  | .bare p => p.all isPathChar
  | .url _ host p =>
    !host.isEmpty && host.all (fun c => isHostChar c && isPathChar c) && p.all isPathChar

/-- The text has no `/`. -/
def noSlash (g : Str) : Bool := g.all (fun c => !(c = '/'))

/-- The text starts with a whitespace character. -/
def startsWithSpace : Str → Bool
  | c :: _ => isSpace c
  | [] => false

/-- The text ends with a whitespace character. -/
def endsWithSpace (g : Str) : Bool :=
  match g.getLast? with
  | some c => isSpace c
  | none => false

/-- The text made of tokens, each followed by a gap. -/
def tokensText : List (PathToken × Str) → Str
  | [] => []
  | (t, g) :: rest => t.text ++ g ++ tokensText rest

/-- The gap `g` after a token and the tokens after it are delimited by
whitespace: a gap (words and whitespace) has no `/` and starts with
whitespace; it ends with whitespace when a token follows; it may be empty at
the end of the text. -/
def gapsOK : Str → List (PathToken × Str) → Bool
  | g, [] => noSlash g && (g.isEmpty || startsWithSpace g)
  | g, (t, g') :: rest =>
    noSlash g && startsWithSpace g && endsWithSpace g && t.wellFormed && gapsOK g' rest

/-- The text `g0 ++ tokensText items` is a sequence of whitespace-delimited
tokens whose path-like tokens are those of `items`: the text before the
first token has no `/` and is empty or ends with whitespace. -/
def wellDelimited (g0 : Str) : List (PathToken × Str) → Bool
  | [] => noSlash g0
  | (t, g) :: rest =>
    noSlash g0 && (g0.isEmpty || endsWithSpace g0) && t.wellFormed && gapsOK g rest

/-- The list `filesFromURI(p1) ++ ... ++ filesFromURI(pn)`. -/
def derivedURIs (cfg : config) : List Str → List Str
  | [] => []
  | p :: ps => filesFromURI cfg p ++ derivedURIs cfg ps

/-- Some flush tick occurs among the events. -/
def hasTick : List DEvent → Bool
  | [] => false
  | .tick _ :: _ => true
  | .enqueue _ :: es => hasTick es

/-- The jobs enqueued, in order. -/
def enqueued : List DEvent → List cacheClearPending
  | [] => []
  | .enqueue q :: es => q :: enqueued es
  | .tick _ :: es => enqueued es

/-- The jobs enqueued before the last flush tick, in enqueue order. -/
def enqueuedBeforeLastTick : List DEvent → List cacheClearPending
  | [] => []
  | .enqueue q :: es => if hasTick es then q :: enqueuedBeforeLastTick es else []
  | .tick _ :: es => enqueuedBeforeLastTick es

/-- The condition of the reachable-state invariant on one request: at most
30 URIs, and none when everything is to be purged. -/
def boundedRequest (p : cacheClearPending) : Prop :=
  p.URIs.length ≤ 30 ∧ (p.Everything = true → p.URIs = [])

/-- The reachable-state invariant: every pending entry is stored under its
own user and is bounded, and so is every job of the queue and the buffer. -/
def Invariant (s : State) : Prop :=
  (∀ u p, s.clearPending u = some p → p.User = u ∧ boundedRequest p)
  ∧ (∀ j, j ∈ s.cacheQueue → boundedRequest j)
  ∧ (∀ j, j ∈ s.clearWaiting → boundedRequest j)

/-- The request names something to purge: everything, or at least one
URI. -/
def hasScope (p : cacheClearPending) : Prop :=
  p.Everything = true ∨ p.URIs ≠ []

/-- Every request of the store, the queue and the buffer names something to
purge, and every call of `do` made so far was on such a request, with the
body that `do` builds for it. -/
def Scoped (s : State) : Prop :=
  (∀ u p, s.clearPending u = some p → hasScope p)
  ∧ (∀ j, j ∈ s.cacheQueue → hasScope j)
  ∧ (∀ j, j ∈ s.clearWaiting → hasScope j)
  ∧ (∀ v req, Effect.purge v req ∈ s.effects → req = buildRequest v ∧ hasScope v)

/-! ## Concrete inputs -/

/-- A configuration with one base and no suffix: one URL per path token. -/
def limitCfg : config :=
  { CloudflareToken := [], CloudflareZone := [], TriggerPhrase := [], SlackToken := [],
    URLBases := ["b".toList], URLSuffixes := [],
    RestrictedChannels := ["ops".toList], AuthorisedUsers := ["alice".toList] }

/-- An environment with bot `BOT`, restricted channel `C1` and authorised
user `U1`. -/
def limitEnv : Env :=
  { cfg := limitCfg, botUserID := "BOT".toList,
    restrictedChannels := ["C1".toList], authorisedUsers := ["U1".toList] }

/-- The text `clear cache /x /x ... /x` with `n` path tokens. -/
def manyPaths (n : Nat) : Str :=
  "clear cache".toList ++ (List.replicate n " /x".toList).flatten

/-- A message of user `U2` in the unrestricted channel `C2`. -/
def fromU2 (text : Str) : MessageEvent :=
  { User := "U2".toList, Channel := "C2".toList, Text := text }

/-- A message of user `U2` in the restricted channel `C1`. -/
def fromU2Restricted (text : Str) : MessageEvent :=
  { User := "U2".toList, Channel := "C1".toList, Text := text }

/-- A message of the bot itself in the restricted channel `C1`. -/
def fromBot (text : Str) : MessageEvent :=
  { User := "BOT".toList, Channel := "C1".toList, Text := text }

/-- A pending request of user `U2` for everything. -/
def pendingU2 : cacheClearPending :=
  { Everything := true, URIs := [], Created := 0, User := "U2".toList, Channel := "C2".toList }

/-- A state in which `U2` has the pending request `pendingU2`. -/
def stateU2 : State :=
  { clearPending := setPending emptyPending "U2".toList pendingU2,
    cacheQueue := [], clearWaiting := [], effects := [] }

/-- The tokens of `clear cache for /x and /y` after `clear cache for `. -/
def tokensXY : List (PathToken × Str) :=
  [(PathToken.bare "x".toList, " and ".toList), (PathToken.bare "y".toList, [])]

/-- A configuration without any base. -/
def noBaseCfg : config :=
  { CloudflareToken := [], CloudflareZone := [], TriggerPhrase := [], SlackToken := [],
    URLBases := [], URLSuffixes := ["index.html".toList],
    RestrictedChannels := [], AuthorisedUsers := [] }

/-- The environment of `limitEnv` with the configuration `noBaseCfg`. -/
def noBaseEnv : Env :=
  { cfg := noBaseCfg, botUserID := "BOT".toList,
    restrictedChannels := ["C1".toList], authorisedUsers := ["U1".toList] }

/-- A job of user `U2` for the single URL `b/x`. -/
def jobX : cacheClearPending :=
  { Everything := false, URIs := ["b/x".toList], Created := 1, User := "U2".toList,
    Channel := "C2".toList }

/-- A job of user `U3` for everything. -/
def jobAll : cacheClearPending :=
  { Everything := true, URIs := [], Created := 2, User := "U3".toList,
    Channel := "C3".toList }

/-- A job whose flag asks for everything while it carries a URL. -/
def jobBoth : cacheClearPending :=
  { Everything := true, URIs := ["b/x".toList], Created := 3, User := "U2".toList,
    Channel := "C2".toList }

/-- A request of user `U2` that is not for everything and has no URI. -/
def emptyJob : cacheClearPending :=
  { Everything := false, URIs := [], Created := 1, User := "U2".toList,
    Channel := "C2".toList }

/-- Every purge call fails in transport with the text `timeout`. -/
def allFail : Nat → Outcome := fun _ => Outcome.sendFailed "timeout".toList

/-- Every purge call succeeds. -/
def allOk : Nat → Outcome := fun _ => Outcome.response true

/-- The first purge call of a tick fails in transport, the others succeed. -/
def firstFails : Nat → Outcome
  | 0 => Outcome.sendFailed "timeout".toList
  | _ => Outcome.response true

/-! ## The output order described by the specification -/

/-- The suffix variant `f ⊕ s` in the specification's words: `f + "/" + s`
when `f` does not end in `/`, and `f + s` when it does. -/
def joinSuffix (f s : Str) : Str :=
  if f.getLast? = some '/' then f ++ s else f ++ ['/'] ++ s

/-- The base-major list in the specification's words: for each base in
configuration order, `b + f` followed by `b + (f ⊕ s)` for each suffix in
configuration order. -/
def baseMajor : List Str → List Str → Str → List Str
  | [], _, _ => []
  | b :: bs, suffixes, f =>
    ((b ++ f) :: suffixes.map (fun s => b ++ joinSuffix f s)) ++ baseMajor bs suffixes f

/-- The configuration of the specification's worked example. -/
def exampleCfg : config :=
  { CloudflareToken := [], CloudflareZone := [], TriggerPhrase := [], SlackToken := [],
    URLBases := ["https://a.com".toList, "https://b.com".toList],
    URLSuffixes := ["index.html".toList],
    RestrictedChannels := [], AuthorisedUsers := [] }

/-- An environment with the configuration of the worked example. -/
def exampleEnv : Env :=
  { cfg := exampleCfg, botUserID := "BOT".toList,
    restrictedChannels := ["C1".toList], authorisedUsers := ["U1".toList] }

theorem hasSuffix_singleton (s : Str) (c : Char) :
    hasSuffix s [c] = true ↔ s.getLast? = some c := by
  unfold hasSuffix
  rw [List.getLast?_eq_head?_reverse]
  cases s.reverse with
  | nil => simp [List.isPrefixOf]
  | cons a t =>
    simp only [List.reverse_singleton, List.isPrefixOf, List.head?_cons, Option.some.injEq,
      Bool.and_true, beq_iff_eq]
    exact eq_comm

theorem hasPrefix_iff (s p : Str) : hasPrefix s p = true ↔ p <+: s := by
  unfold hasPrefix
  exact List.isPrefixOf_iff_prefix

theorem trimPrefix_id (s p : Str) (h : ¬ p <+: s) : trimPrefix s p = s := by
  unfold trimPrefix
  rw [if_neg]
  rwa [hasPrefix_iff]

theorem stripBases_id (bases : List Str) (uri : Str)
    (h : ∀ b ∈ bases, ¬ b <+: uri) : stripBases bases uri = uri := by
  unfold stripBases
  induction bases with
  | nil => rfl
  | cons b bs ih =>
    rw [List.foldl_cons, trimPrefix_id uri b (h b (List.mem_cons_self b bs))]
    exact ih (fun c hc => h c (List.mem_cons_of_mem b hc))

theorem foldl_expand (suffixes : List Str) (uri : Str) (bases : List Str) (acc : List Str) :
    bases.foldl (fun res b => res ++ [b ++ uri] ++ suffixURLs suffixes b uri) acc
      = acc ++ expandBases bases suffixes uri := by
  unfold expandBases
  induction bases generalizing acc with
  | nil => simp
  | cons b bs ih =>
    rw [List.foldl_cons, List.foldl_cons, ih (acc ++ [b ++ uri] ++ suffixURLs suffixes b uri),
      ih ([] ++ [b ++ uri] ++ suffixURLs suffixes b uri)]
    simp [List.append_assoc]

theorem expandBases_nil (suffixes : List Str) (uri : Str) :
    expandBases [] suffixes uri = [] := rfl

theorem expandBases_cons (b : Str) (bs suffixes : List Str) (uri : Str) :
    expandBases (b :: bs) suffixes uri
      = ((b ++ uri) :: suffixURLs suffixes b uri) ++ expandBases bs suffixes uri := by
  have h := foldl_expand suffixes uri bs ([] ++ [b ++ uri] ++ suffixURLs suffixes b uri)
  unfold expandBases at h ⊢
  rw [List.foldl_cons, h]
  simp

theorem suffixURLs_length (suffixes : List Str) (b uri : Str) :
    (suffixURLs suffixes b uri).length = suffixes.length := by
  simp [suffixURLs]

theorem expandBases_length (bases suffixes : List Str) (uri : Str) :
    (expandBases bases suffixes uri).length = bases.length * (1 + suffixes.length) := by
  induction bases with
  | nil => simp [expandBases_nil]
  | cons b bs ih =>
    rw [expandBases_cons, List.length_append, ih, List.length_cons, suffixURLs_length,
      List.length_cons]
    ring

theorem suffixURLs_eq_joinSuffix (suffixes : List Str) (b f : Str) :
    suffixURLs suffixes b f = suffixes.map (fun s => b ++ joinSuffix f s) := by
  unfold suffixURLs joinSuffix
  apply List.map_congr_left
  intro s _
  by_cases h : f.getLast? = some '/'
  · have h2 : hasSuffix f ['/'] = true := (hasSuffix_singleton f '/').2 h
    simp [h, h2, List.append_assoc]
  · have h2 : hasSuffix f ['/'] = false := by
      cases h3 : hasSuffix f ['/'] with
      | false => rfl
      | true => exact absurd ((hasSuffix_singleton f '/').1 h3) h
    simp [h, h2, List.append_assoc]

theorem expandBases_eq_baseMajor (bases suffixes : List Str) (f : Str) :
    expandBases bases suffixes f = baseMajor bases suffixes f := by
  induction bases with
  | nil => rfl
  | cons b bs ih => rw [expandBases_cons, ih, suffixURLs_eq_joinSuffix]; rfl

theorem filesFromURI_length (cfg : config) (uri : Str) :
    (filesFromURI cfg uri).length = cfg.URLBases.length * (1 + cfg.URLSuffixes.length) := by
  unfold filesFromURI
  exact expandBases_length _ _ _

/-! ## Lemmas on the pattern -/

theorem matchLit_suffix (lit s r : Str) (h : matchLit lit s = some r) : r <:+ s := by
  unfold matchLit at h
  split at h
  · cases h
    exact List.drop_suffix _ _
  · cases h

theorem skipS_suffix (s : Str) : skipS s <:+ s := by
  unfold skipS
  split
  · exact List.suffix_cons _ _
  · exact List.suffix_refl _

theorem matchHost_suffix (s r : Str) (h : matchHost s = some r) : r <:+ s := by
  unfold matchHost at h
  split at h
  · cases h
  · rename_i r1 h1
    split at h
    · cases h
    · rename_i r2 h2
      split at h
      · cases h
      · cases h
        exact (List.dropWhile_suffix _).trans
          ((matchLit_suffix _ _ _ h2).trans ((skipS_suffix r1).trans (matchLit_suffix _ _ _ h1)))

theorem matchPath_slash (s : Str) (r : Str × Str) (h : matchPath s = some r) : '/' ∈ s := by
  unfold matchPath at h
  split at h
  · exact List.mem_cons_self _ _
  · cases h

theorem matchPath_cons_slash (t : Str) :
    matchPath ('/' :: t) = some ('/' :: t.takeWhile isPathChar, t.dropWhile isPathChar) := rfl

theorem matchHere_slash (s : Str) (r : Str × Str) (h : matchHere s = some r) : '/' ∈ s := by
  unfold matchHere at h
  split at h
  · rename_i r1 h1
    rcases Option.bind_eq_some.1 h1 with ⟨rest, hrest, hpath⟩
    exact (matchHost_suffix s rest hrest).subset (matchPath_slash rest r1 hpath)
  · exact matchPath_slash s r h

theorem matchHere_cons_slash (t : Str) : (matchHere ('/' :: t)).isSome = true := by
  unfold matchHere
  split
  · rfl
  · rw [matchPath_cons_slash]; rfl

theorem findFirst_none (s : Str) (h : '/' ∉ s) : findFirst s = none := by
  induction s with
  | nil => rfl
  | cons c cs ih =>
    unfold findFirst
    have hnone : matchHere (c :: cs) = none := by
      cases hm : matchHere (c :: cs) with
      | none => rfl
      | some r => exact absurd (matchHere_slash _ r hm) h
    rw [hnone]
    exact ih (fun hc => h (List.mem_cons_of_mem c hc))

theorem findFirst_isSome (s : Str) (h : '/' ∈ s) : (findFirst s).isSome = true := by
  induction s with
  | nil => cases h
  | cons c cs ih =>
    unfold findFirst
    cases hm : matchHere (c :: cs) with
    | some r => rfl
    | none =>
      have hc : c ≠ '/' := by
        intro hc
        have h2 := matchHere_cons_slash cs
        rw [← hc, hm] at h2
        cases h2
      rcases List.mem_cons.1 h with h1 | h1
      · exact absurd h1.symm hc
      · exact ih h1

theorem FindAllStringSubmatch_eq_nil_iff (s : Str) :
    FindAllStringSubmatch s = [] ↔ '/' ∉ s := by
  unfold FindAllStringSubmatch
  constructor
  · intro h hs
    have h1 := findFirst_isSome s hs
    cases s with
    | nil => cases hs
    | cons c cs =>
      rw [List.length_cons] at h
      unfold findAllFuel at h
      cases hf : findFirst (c :: cs) with
      | none => rw [hf] at h1; cases h1
      | some r => rw [hf] at h; cases h
  · intro hs
    cases s with
    | nil => rfl
    | cons c cs =>
      rw [List.length_cons]
      unfold findAllFuel
      rw [findFirst_none _ hs]

theorem matchPath_shorter (s cap rest : Str) (h : matchPath s = some (cap, rest)) :
    rest.length < s.length := by
  unfold matchPath at h
  split at h
  · rename_i t
    cases h
    exact Nat.lt_succ_of_le (List.dropWhile_suffix isPathChar).length_le
  · cases h

theorem matchHere_shorter (s cap rest : Str) (h : matchHere s = some (cap, rest)) :
    rest.length < s.length := by
  unfold matchHere at h
  split at h
  · rename_i r1 h1
    cases h
    rcases Option.bind_eq_some.1 h1 with ⟨r0, hr0, hpath⟩
    exact Nat.lt_of_lt_of_le (matchPath_shorter r0 cap rest hpath)
      (matchHost_suffix s r0 hr0).length_le
  · exact matchPath_shorter s cap rest h

theorem findFirst_shorter (s : Str) (m : List Str) (rest : Str)
    (h : findFirst s = some (m, rest)) : rest.length < s.length := by
  induction s with
  | nil => cases h
  | cons c cs ih =>
    unfold findFirst at h
    split at h
    · rename_i cap r hm
      cases h
      exact matchHere_shorter _ cap rest hm
    · exact Nat.lt_succ_of_lt (ih h)

/-- The fuel of `FindAllStringSubmatch` never runs out: any fuel of at least
the length of the text gives the same list of matches. -/
theorem findAllFuel_enough (n m : Nat) (s : Str) (hn : s.length ≤ n) (hm : s.length ≤ m) :
    findAllFuel n s = findAllFuel m s := by
  induction n generalizing m s with
  | zero =>
    have hs : s = [] := List.length_eq_zero.1 (Nat.le_zero.1 hn)
    subst hs
    cases m with
    | zero => rfl
    | succ k => rfl
  | succ n ih =>
    cases m with
    | zero =>
      have hs : s = [] := List.length_eq_zero.1 (Nat.le_zero.1 hm)
      subst hs
      rfl
    | succ k =>
      unfold findAllFuel
      cases hf : findFirst s with
      | none => rfl
      | some r =>
        obtain ⟨mt, rest⟩ := r
        have hlt := findFirst_shorter s mt rest hf
        simp only
        rw [ih k rest (by omega) (by omega)]

theorem toLower_slash (text : Str) (h : '/' ∈ text) : '/' ∈ toLower text := by
  unfold toLower
  exact List.mem_map.2 ⟨'/', h, by decide⟩

theorem isCommand_of_slash (text : Str) (h : '/' ∈ text) : isCommand text = false := by
  have h1 := toLower_slash text h
  unfold isCommand
  have a : toLower text ≠ "help".toList := fun e => absurd (e ▸ h1) (by decide)
  have b : toLower text ≠ "yes".toList := fun e => absurd (e ▸ h1) (by decide)
  have c : toLower text ≠ "no".toList := fun e => absurd (e ▸ h1) (by decide)
  simp only [Bool.or_eq_false_iff, decide_eq_false_iff_not]
  exact ⟨⟨a, b⟩, c⟩

theorem isCommand_false (text : Str) (h : isCommand text = false) :
    toLower text ≠ "help".toList ∧ toLower text ≠ "yes".toList ∧ toLower text ≠ "no".toList := by
  unfold isCommand at h
  simp only [Bool.or_eq_false_iff, decide_eq_false_iff_not] at h
  exact ⟨h.1.1, h.1.2, h.2⟩

/-! ## The branches of the handler -/

theorem handleMessage_bot (env : Env) (now : Nat) (s : State) (ev : MessageEvent)
    (hbot : ev.User = env.botUserID) : handleMessage env now s ev = s := by
  unfold handleMessage
  rw [if_pos hbot]

theorem handleMessage_refused (env : Env) (now : Nat) (s : State) (ev : MessageEvent)
    (hbot : ev.User ≠ env.botUserID) (href : refused env ev = true) :
    handleMessage env now s ev = PostMessage s ev.Channel (restrictedMessage ev.User) := by
  unfold refused at href
  unfold handleMessage
  simp only [if_neg hbot, href, if_true]

theorem handleMessage_yes_some (env : Env) (now : Nat) (s : State) (ev : MessageEvent)
    (p : cacheClearPending) (hperm : permitted env ev) (htext : toLower ev.Text = "yes".toList)
    (hp : s.clearPending ev.User = some p) :
    handleMessage env now s ev =
      { clearPending := deletePending s.clearPending ev.User,
        cacheQueue := s.cacheQueue ++ [p],
        clearWaiting := s.clearWaiting,
        effects := s.effects ++ [Effect.post ev.Channel
          ("<@".toList ++ ev.User ++ "> Ok, I'll let you know when it's done.".toList)] } := by
  obtain ⟨hbot, href⟩ := hperm
  unfold refused at href
  have hh : ¬ "yes".toList = "help".toList := by decide
  unfold handleMessage
  simp only [if_neg hbot, href, htext, hp, hh, if_false, if_true, Bool.false_eq_true,
    PostMessage]

theorem handleMessage_yes_none (env : Env) (now : Nat) (s : State) (ev : MessageEvent)
    (href : refused env ev = false) (htext : toLower ev.Text = "yes".toList)
    (hp : s.clearPending ev.User = none) :
    handleMessage env now s ev = s := by
  unfold refused at href
  have hh : ¬ "yes".toList = "help".toList := by decide
  unfold handleMessage
  simp only [href, htext, hp, hh, if_false, if_true, Bool.false_eq_true, ite_self]

theorem handleMessage_no_some (env : Env) (now : Nat) (s : State) (ev : MessageEvent)
    (p : cacheClearPending) (hperm : permitted env ev) (htext : toLower ev.Text = "no".toList)
    (hp : s.clearPending ev.User = some p) :
    handleMessage env now s ev =
      { clearPending := deletePending s.clearPending ev.User,
        cacheQueue := s.cacheQueue,
        clearWaiting := s.clearWaiting,
        effects := s.effects ++ [Effect.post ev.Channel
          ("<@".toList ++ ev.User ++ "> Ok, I'll cancel that!".toList)] } := by
  obtain ⟨hbot, href⟩ := hperm
  unfold refused at href
  have hh : ¬ "no".toList = "help".toList := by decide
  have hy : ¬ "no".toList = "yes".toList := by decide
  unfold handleMessage
  simp only [if_neg hbot, href, htext, hp, hh, hy, if_false, if_true, Bool.false_eq_true,
    PostMessage]

theorem handleMessage_no_none (env : Env) (now : Nat) (s : State) (ev : MessageEvent)
    (href : refused env ev = false) (htext : toLower ev.Text = "no".toList)
    (hp : s.clearPending ev.User = none) :
    handleMessage env now s ev = s := by
  unfold refused at href
  have hh : ¬ "no".toList = "help".toList := by decide
  have hy : ¬ "no".toList = "yes".toList := by decide
  unfold handleMessage
  simp only [href, htext, hp, hh, hy, if_false, if_true, Bool.false_eq_true, ite_self]

theorem handleMessage_everything (env : Env) (now : Nat) (s : State) (ev : MessageEvent)
    (hperm : permitted env ev) (hcmd : isCommand ev.Text = false)
    (htrig : contains ev.Text (trigger env.cfg) = true)
    (hm : FindAllStringSubmatch ev.Text = []) :
    handleMessage env now s ev =
      { clearPending := setPending s.clearPending ev.User
          { Everything := true, URIs := [], Created := now, User := ev.User,
            Channel := ev.Channel },
        cacheQueue := s.cacheQueue,
        clearWaiting := s.clearWaiting,
        effects := s.effects ++ [Effect.post ev.Channel
          ("<@".toList ++ ev.User ++ ("> I'm about to clear the entire cache, are you sure?\n" ++
            "*Warning*: This will cause a spike in traffic to the production environment!").toList)] } := by
  obtain ⟨hbot, href⟩ := hperm
  unfold refused at href
  obtain ⟨h1, h2, h3⟩ := isCommand_false _ hcmd
  unfold handleMessage
  simp only [if_neg hbot, href, if_neg h1, if_neg h2, if_neg h3, htrig, hm, List.length_nil,
    if_true, Bool.false_eq_true, if_false, PostMessage]

theorem handleMessage_tooMuch (env : Env) (now : Nat) (s : State) (ev : MessageEvent)
    (hperm : permitted env ev) (hcmd : isCommand ev.Text = false)
    (htrig : contains ev.Text (trigger env.cfg) = true)
    (hm : FindAllStringSubmatch ev.Text ≠ [])
    (hlen : 30 < (collectURIs env.cfg (FindAllStringSubmatch ev.Text)).length) :
    handleMessage env now s ev = PostMessage s ev.Channel (tooMuchMessage ev.User) := by
  obtain ⟨hbot, href⟩ := hperm
  unfold refused at href
  obtain ⟨h1, h2, h3⟩ := isCommand_false _ hcmd
  have hm2 : ¬ (FindAllStringSubmatch ev.Text).length = 0 := by
    rw [List.length_eq_zero]; exact hm
  unfold handleMessage
  simp only [if_neg hbot, href, if_neg h1, if_neg h2, if_neg h3, htrig, if_neg hm2,
    if_true, Bool.false_eq_true, if_false, gt_iff_lt, if_pos hlen]

theorem handleMessage_uris (env : Env) (now : Nat) (s : State) (ev : MessageEvent)
    (hperm : permitted env ev) (hcmd : isCommand ev.Text = false)
    (htrig : contains ev.Text (trigger env.cfg) = true)
    (hm : FindAllStringSubmatch ev.Text ≠ [])
    (hlen : (collectURIs env.cfg (FindAllStringSubmatch ev.Text)).length ≤ 30) :
    handleMessage env now s ev =
      { clearPending := setPending s.clearPending ev.User
          { Everything := false, URIs := collectURIs env.cfg (FindAllStringSubmatch ev.Text),
            Created := now, User := ev.User, Channel := ev.Channel },
        cacheQueue := s.cacheQueue,
        clearWaiting := s.clearWaiting,
        effects := s.effects ++ [Effect.post ev.Channel
          ("<@".toList ++ ev.User ++
            "> I'm about to clear the following cache items, are you sure?\n".toList ++
            ("`".toList ++ join (collectURIs env.cfg (FindAllStringSubmatch ev.Text))
              "`\n`".toList ++ "`".toList))] } := by
  obtain ⟨hbot, href⟩ := hperm
  unfold refused at href
  obtain ⟨h1, h2, h3⟩ := isCommand_false _ hcmd
  have hm2 : ¬ (FindAllStringSubmatch ev.Text).length = 0 := by
    rw [List.length_eq_zero]; exact hm
  have hlen2 : ¬ 30 < (collectURIs env.cfg (FindAllStringSubmatch ev.Text)).length := by omega
  unfold handleMessage
  simp only [if_neg hbot, href, if_neg h1, if_neg h2, if_neg h3, htrig, if_neg hm2,
    if_true, Bool.false_eq_true, if_false, gt_iff_lt, if_neg hlen2, PostMessage]

theorem setPending_same (m : Str → Option cacheClearPending) (u : Str) (p : cacheClearPending) :
    setPending m u p u = some p := by
  unfold setPending
  rw [if_pos rfl]

theorem setPending_other (m : Str → Option cacheClearPending) (u v : Str) (p : cacheClearPending)
    (h : v ≠ u) : setPending m u p v = m v := by
  unfold setPending
  rw [if_neg h]

theorem deletePending_same (m : Str → Option cacheClearPending) (u : Str) :
    deletePending m u u = none := by
  unfold deletePending
  rw [if_pos rfl]

theorem deletePending_other (m : Str → Option cacheClearPending) (u v : Str) (h : v ≠ u) :
    deletePending m u v = m v := by
  unfold deletePending
  rw [if_neg h]

/-! ## The dispatcher's receive -/

theorem receiveN_drain (n : Nat) (s : State) (h : s.cacheQueue.length = n) :
    (receiveN n s).cacheQueue = []
    ∧ (receiveN n s).clearWaiting = s.clearWaiting ++ s.cacheQueue
    ∧ (receiveN n s).clearPending = s.clearPending := by
  induction n generalizing s with
  | zero =>
    have h0 : s.cacheQueue = [] := List.length_eq_zero.1 h
    simp [receiveN, h0]
  | succ n ih =>
    cases hq : s.cacheQueue with
    | nil => rw [hq] at h; cases h
    | cons q rest =>
      have hr : receive s
          = { s with cacheQueue := rest, clearWaiting := s.clearWaiting ++ [q] } := by
        unfold receive
        rw [hq]
      have hlen : (receive s).cacheQueue.length = n := by
        rw [hr]
        rw [hq] at h
        simpa using h
      obtain ⟨a, b, c⟩ := ih (receive s) hlen
      unfold receiveN
      refine ⟨a, ?_, ?_⟩
      · rw [b, hr]; simp
      · rw [c, hr]

/-! ## Theorems on `filesFromURI` -/

/-- C1: for every configuration with N bases and S suffixes and every input
string, `filesFromURI` returns exactly N × (1 + S) URLs, and it returns the
empty list exactly when no base is configured. -/
theorem filesFromURI_count (cfg : config) (uri : Str) :
    (filesFromURI cfg uri).length = cfg.URLBases.length * (1 + cfg.URLSuffixes.length)
      ∧ (filesFromURI cfg uri = [] ↔ cfg.URLBases = []) := by
  refine ⟨filesFromURI_length cfg uri, ?_⟩
  rw [← List.length_eq_zero, filesFromURI_length, ← List.length_eq_zero]
  constructor
  · intro h
    rcases Nat.mul_eq_zero.1 h with h1 | h1
    · exact h1
    · omega
  · intro h
    rw [h, Nat.zero_mul]

/-- C2: for a fragment that starts with `/`, does not end in a comma and has
no configured base as a prefix, `filesFromURI` is exactly the base-major
list of the specification, in configuration order. -/
theorem filesFromURI_baseMajor (cfg : config) (f : Str)
    (hslash : f.head? = some '/') (hcomma : f.getLast? ≠ some ',')
    (hbase : ∀ b ∈ cfg.URLBases, ¬ b <+: f) :
    filesFromURI cfg f = baseMajor cfg.URLBases cfg.URLSuffixes f := by
  have h1 : trimSuffix f [','] = f := by
    unfold trimSuffix
    rw [if_neg]
    rw [hasSuffix_singleton]
    exact hcomma
  have h2 : hasPrefix f ['/'] = true := by
    cases f with
    | nil => simp at hslash
    | cons a t =>
      simp at hslash
      simp [hasPrefix, List.isPrefixOf, hslash]
  unfold filesFromURI
  simp only [h1, h2, Bool.not_true, Bool.false_eq_true, if_false]
  rw [stripBases_id _ _ hbase, expandBases_eq_baseMajor]

/-- Witness for C2: the specification's worked example. -/
theorem filesFromURI_baseMajor_witness :
    filesFromURI exampleCfg "/foo".toList
      = ["https://a.com/foo".toList, "https://a.com/foo/index.html".toList,
         "https://b.com/foo".toList, "https://b.com/foo/index.html".toList] :=
  (filesFromURI_baseMajor exampleCfg "/foo".toList (by decide) (by decide) (by decide)).trans
    (by decide)

/-- C4: for a message of a permitted sender with the trigger phrase and at
least one path token, more than 30 derived URIs give the over-limit message
and leave the store, the queue and the buffer as they were; at most 30 make
the sender's pending entry the non-Everything request with exactly that
list. -/
theorem trigger_limit (env : Env) (now : Nat) (s : State) (ev : MessageEvent)
    (hperm : permitted env ev) (htrig : contains ev.Text (trigger env.cfg) = true)
    (htok : FindAllStringSubmatch ev.Text ≠ []) :
    (30 < (collectURIs env.cfg (FindAllStringSubmatch ev.Text)).length →
      (handleMessage env now s ev).clearPending = s.clearPending
      ∧ (handleMessage env now s ev).cacheQueue = s.cacheQueue
      ∧ (handleMessage env now s ev).clearWaiting = s.clearWaiting
      ∧ (handleMessage env now s ev).effects
          = s.effects ++ [Effect.post ev.Channel (tooMuchMessage ev.User)])
    ∧ ((collectURIs env.cfg (FindAllStringSubmatch ev.Text)).length ≤ 30 →
      (handleMessage env now s ev).clearPending ev.User
          = some { Everything := false,
                   URIs := collectURIs env.cfg (FindAllStringSubmatch ev.Text),
                   Created := now, User := ev.User, Channel := ev.Channel }
      ∧ (∀ v, v ≠ ev.User → (handleMessage env now s ev).clearPending v = s.clearPending v)
      ∧ (handleMessage env now s ev).cacheQueue = s.cacheQueue
      ∧ (handleMessage env now s ev).clearWaiting = s.clearWaiting) := by
  have hslash : '/' ∈ ev.Text := by
    by_contra hc
    exact htok ((FindAllStringSubmatch_eq_nil_iff _).2 hc)
  have hcmd := isCommand_of_slash _ hslash
  constructor
  · intro hlen
    rw [handleMessage_tooMuch env now s ev hperm hcmd htrig htok hlen]
    exact ⟨rfl, rfl, rfl, rfl⟩
  · intro hlen
    rw [handleMessage_uris env now s ev hperm hcmd htrig htok hlen]
    exact ⟨setPending_same _ _ _, fun v hv => setPending_other _ _ _ _ hv, rfl, rfl⟩

/-- Witness for C4: with one URL per token, 30 tokens are accepted and 31
are rejected. -/
theorem trigger_limit_witness :
    ((collectURIs limitEnv.cfg (FindAllStringSubmatch (fromU2 (manyPaths 30)).Text)).length = 30
      ∧ (handleMessage limitEnv 7 initState (fromU2 (manyPaths 30))).clearPending "U2".toList
          = some { Everything := false, URIs := List.replicate 30 "b/x".toList, Created := 7,
                   User := "U2".toList, Channel := "C2".toList })
    ∧ ((collectURIs limitEnv.cfg (FindAllStringSubmatch (fromU2 (manyPaths 31)).Text)).length = 31
      ∧ (handleMessage limitEnv 7 initState (fromU2 (manyPaths 31))).clearPending
          = initState.clearPending
      ∧ (handleMessage limitEnv 7 initState (fromU2 (manyPaths 31))).cacheQueue = []) :=
  ⟨⟨by decide,
    ((trigger_limit limitEnv 7 initState (fromU2 (manyPaths 30)) (by decide) (by decide)
      (by decide)).2 (by decide)).1⟩,
   ⟨by decide,
    ((trigger_limit limitEnv 7 initState (fromU2 (manyPaths 31)) (by decide) (by decide)
      (by decide)).1 (by decide)).1,
    ((trigger_limit limitEnv 7 initState (fromU2 (manyPaths 31)) (by decide) (by decide)
      (by decide)).1 (by decide)).2.1⟩⟩

/-- C5, as stated, fails: the second trigger message derives 31 URIs and is
rejected, so the pending entry still is the request of the first message and
a following `yes` enqueues the first message's scope. -/
theorem second_trigger_rejected_keeps_first :
    permitted limitEnv (fromU2 (manyPaths 31))
    ∧ contains (fromU2 "clear cache /a".toList).Text (trigger limitEnv.cfg) = true
    ∧ contains (fromU2 (manyPaths 31)).Text (trigger limitEnv.cfg) = true
    ∧ (handleMessage limitEnv 2
        (handleMessage limitEnv 1 initState (fromU2 "clear cache /a".toList))
        (fromU2 (manyPaths 31))).clearPending "U2".toList
        = some { Everything := false, URIs := ["b/a".toList], Created := 1,
                 User := "U2".toList, Channel := "C2".toList }
    ∧ (handleMessage limitEnv 3
        (handleMessage limitEnv 2
          (handleMessage limitEnv 1 initState (fromU2 "clear cache /a".toList))
          (fromU2 (manyPaths 31)))
        (fromU2 "yes".toList)).cacheQueue
        = [{ Everything := false, URIs := ["b/a".toList], Created := 1,
             User := "U2".toList, Channel := "C2".toList }]
    ∧ (derivedRequest limitEnv.cfg 2 (fromU2 (manyPaths 31))).URIs ≠ ["b/a".toList] := by
  decide

/-- C5, amended: when the second trigger message is accepted (permitted
sender, not a command, at most 30 derived URIs), the requester's pending
entry after it is the request derived from the second message alone,
whatever the first message was, and a following `yes` of the requester
enqueues exactly that request and clears the entry. -/
theorem second_trigger_replaces (env : Env) (now1 now2 now3 : Nat) (s : State)
    (m1 m2 y : MessageEvent)
    (hperm2 : permitted env m2) (hcmd2 : isCommand m2.Text = false)
    (htrig2 : contains m2.Text (trigger env.cfg) = true)
    (hlim : (collectURIs env.cfg (FindAllStringSubmatch m2.Text)).length ≤ 30)
    (hpermY : permitted env y) (hyu : y.User = m2.User) (hyt : y.Text = "yes".toList) :
    (handleMessage env now2 (handleMessage env now1 s m1) m2).clearPending m2.User
        = some (derivedRequest env.cfg now2 m2)
    ∧ (handleMessage env now2 (handleMessage env now1 s m1) m2).cacheQueue
        = (handleMessage env now1 s m1).cacheQueue
    ∧ (handleMessage env now3 (handleMessage env now2 (handleMessage env now1 s m1) m2) y).cacheQueue
        = (handleMessage env now1 s m1).cacheQueue ++ [derivedRequest env.cfg now2 m2]
    ∧ (handleMessage env now3
        (handleMessage env now2 (handleMessage env now1 s m1) m2) y).clearPending m2.User
        = none := by
  have hy : toLower y.Text = "yes".toList := by rw [hyt]; decide
  generalize handleMessage env now1 s m1 = s1
  have key : (handleMessage env now2 s1 m2).clearPending m2.User
        = some (derivedRequest env.cfg now2 m2)
      ∧ (handleMessage env now2 s1 m2).cacheQueue = s1.cacheQueue := by
    by_cases hm : FindAllStringSubmatch m2.Text = []
    · rw [handleMessage_everything env now2 s1 m2 hperm2 hcmd2 htrig2 hm]
      unfold derivedRequest
      rw [if_pos hm]
      exact ⟨setPending_same _ _ _, rfl⟩
    · rw [handleMessage_uris env now2 s1 m2 hperm2 hcmd2 htrig2 hm hlim]
      unfold derivedRequest
      rw [if_neg hm]
      exact ⟨setPending_same _ _ _, rfl⟩
  obtain ⟨k1, k2⟩ := key
  refine ⟨k1, k2, ?_, ?_⟩
  · rw [handleMessage_yes_some env now3 _ y (derivedRequest env.cfg now2 m2) hpermY hy
      (by rw [hyu]; exact k1), k2]
  · rw [handleMessage_yes_some env now3 _ y (derivedRequest env.cfg now2 m2) hpermY hy
      (by rw [hyu]; exact k1), hyu]
    exact deletePending_same _ _

/-- Witness for the amended C5: after `clear cache /a` and then
`clear cache /x`, a `yes` enqueues the request for `/x` only. -/
theorem second_trigger_replaces_witness :
    (handleMessage limitEnv 3
        (handleMessage limitEnv 2
          (handleMessage limitEnv 1 initState (fromU2 "clear cache /a".toList))
          (fromU2 (manyPaths 1)))
        (fromU2 "yes".toList)).cacheQueue
      = [{ Everything := false, URIs := ["b/x".toList], Created := 2,
           User := "U2".toList, Channel := "C2".toList }] :=
  (second_trigger_replaces limitEnv 1 2 3 initState (fromU2 "clear cache /a".toList)
    (fromU2 (manyPaths 1)) (fromU2 "yes".toList) (by decide) (by decide) (by decide)
    (by decide) (by decide) rfl rfl).2.2.1

/-- C6: for a permitted requester with pending request `p`, the message
`yes` appends exactly `p` to the dispatch queue as one new job and removes
the requester's entry from the store, leaving every other entry and the
buffer as they were; once the dispatcher has received the queued jobs, `p`
is the last job of its buffer. -/
theorem yes_promotes (env : Env) (now : Nat) (s : State) (ev : MessageEvent)
    (p : cacheClearPending) (hperm : permitted env ev) (htext : ev.Text = "yes".toList)
    (hp : s.clearPending ev.User = some p) :
    (handleMessage env now s ev).cacheQueue = s.cacheQueue ++ [p]
    ∧ (handleMessage env now s ev).clearPending ev.User = none
    ∧ (∀ v, v ≠ ev.User → (handleMessage env now s ev).clearPending v = s.clearPending v)
    ∧ (handleMessage env now s ev).clearWaiting = s.clearWaiting
    ∧ (receiveN (s.cacheQueue.length + 1) (handleMessage env now s ev)).clearWaiting
        = s.clearWaiting ++ s.cacheQueue ++ [p]
    ∧ (receiveN (s.cacheQueue.length + 1) (handleMessage env now s ev)).clearPending ev.User
        = none := by
  have hy : toLower ev.Text = "yes".toList := by rw [htext]; decide
  have hs := handleMessage_yes_some env now s ev p hperm hy hp
  have hd := receiveN_drain (s.cacheQueue.length + 1) (handleMessage env now s ev)
    (by rw [hs]; simp)
  refine ⟨by rw [hs], by rw [hs]; exact deletePending_same _ _,
    fun v hv => by rw [hs]; exact deletePending_other _ _ _ hv, by rw [hs], ?_, ?_⟩
  · rw [hd.2.1, hs]
    exact (List.append_assoc _ _ _).symm
  · rw [hd.2.2, hs]
    exact deletePending_same _ _

/-- Witness for C6: `U2` confirms the pending request `pendingU2`. -/
theorem yes_promotes_witness :
    (handleMessage limitEnv 4 stateU2 (fromU2 "yes".toList)).cacheQueue = [pendingU2]
    ∧ (handleMessage limitEnv 4 stateU2 (fromU2 "yes".toList)).clearPending "U2".toList = none :=
  ⟨(yes_promotes limitEnv 4 stateU2 (fromU2 "yes".toList) pendingU2 (by decide) rfl
      (by decide)).1,
   (yes_promotes limitEnv 4 stateU2 (fromU2 "yes".toList) pendingU2 (by decide) rfl
      (by decide)).2.1⟩

/-- C7, as stated, fails: a `yes` of a requester with no pending request,
sent in a restricted channel by a user who is not authorised, is answered
with the rejection message. -/
theorem yes_without_pending_refused :
    initState.clearPending "U2".toList = none
    ∧ (handleMessage limitEnv 0 initState (fromU2Restricted "yes".toList)).effects
        = [Effect.post "C1".toList (restrictedMessage "U2".toList)]
    ∧ (handleMessage limitEnv 0 initState (fromU2Restricted "yes".toList)).effects
        ≠ initState.effects := by
  decide

/-- C7, amended: for a requester with no pending request whose message is
not refused by the authorisation check, `yes` leaves the whole state as it
was: no message is sent, nothing is queued, the store is unchanged. -/
theorem yes_without_pending (env : Env) (now : Nat) (s : State) (ev : MessageEvent)
    (href : refused env ev = false) (htext : ev.Text = "yes".toList)
    (hp : s.clearPending ev.User = none) :
    handleMessage env now s ev = s :=
  handleMessage_yes_none env now s ev href (by rw [htext]; decide) hp

/-- Witness for the amended C7: `yes` of `U2` at start-up. -/
theorem yes_without_pending_witness :
    handleMessage limitEnv 0 initState (fromU2 "yes".toList) = initState :=
  yes_without_pending limitEnv 0 initState (fromU2 "yes".toList) (by decide) rfl (by decide)

/-- C8, as stated, fails: a `no` sent in a restricted channel by a user who
is not authorised leaves that user's pending request in the store. -/
theorem no_refused_keeps_pending :
    stateU2.clearPending "U2".toList = some pendingU2
    ∧ (handleMessage limitEnv 0 stateU2 (fromU2Restricted "no".toList)).clearPending
        "U2".toList = some pendingU2 := by
  decide

/-- C8, amended: `no` of a permitted requester with a pending request
removes the requester's entry from the store, and `no` of any sender in any
state adds nothing to the dispatch queue. -/
theorem no_clears (env : Env) (now : Nat) (s : State) (ev : MessageEvent)
    (htext : ev.Text = "no".toList) :
    (permitted env ev → s.clearPending ev.User ≠ none →
      (handleMessage env now s ev).clearPending ev.User = none)
    ∧ (handleMessage env now s ev).cacheQueue = s.cacheQueue := by
  have hn : toLower ev.Text = "no".toList := by rw [htext]; decide
  constructor
  · intro hperm hsome
    cases hp : s.clearPending ev.User with
    | none => exact absurd hp hsome
    | some p =>
      rw [handleMessage_no_some env now s ev p hperm hn hp]
      exact deletePending_same _ _
  · by_cases hbot : ev.User = env.botUserID
    · rw [handleMessage_bot env now s ev hbot]
    · cases href : refused env ev with
      | true => rw [handleMessage_refused env now s ev hbot href]; rfl
      | false =>
        cases hp : s.clearPending ev.User with
        | none => rw [handleMessage_no_none env now s ev href hn hp]
        | some p => rw [handleMessage_no_some env now s ev p ⟨hbot, href⟩ hn hp]

/-- Witness for the amended C8: `U2` cancels the pending request. -/
theorem no_clears_witness :
    (handleMessage limitEnv 4 stateU2 (fromU2 "no".toList)).clearPending "U2".toList = none
    ∧ (handleMessage limitEnv 4 stateU2 (fromU2 "no".toList)).cacheQueue = stateU2.cacheQueue :=
  ⟨(no_clears limitEnv 4 stateU2 (fromU2 "no".toList) rfl).1 (by decide) (by decide),
   (no_clears limitEnv 4 stateU2 (fromU2 "no".toList) rfl).2⟩

/-- C9, as stated, fails: a message of the bot itself in a restricted
channel, the bot not being authorised, is ignored and no rejection is
sent. -/
theorem bot_message_ignored :
    (fromBot "yes".toList).Channel ∈ limitEnv.restrictedChannels
    ∧ (fromBot "yes".toList).User ∉ limitEnv.authorisedUsers
    ∧ (handleMessage limitEnv 0 initState (fromBot "yes".toList)).effects = [] := by
  decide

/-- C9, amended: a message sent in a restricted channel by a user other than
the bot who is not authorised, whatever its text, sends exactly the
rejection addressed to that user and leaves the store, the queue and the
buffer unchanged. -/
theorem restricted_rejects (env : Env) (now : Nat) (s : State) (ev : MessageEvent)
    (hbot : ev.User ≠ env.botUserID) (hr : ev.Channel ∈ env.restrictedChannels)
    (ha : ev.User ∉ env.authorisedUsers) :
    (handleMessage env now s ev).effects
        = s.effects ++ [Effect.post ev.Channel (restrictedMessage ev.User)]
    ∧ (handleMessage env now s ev).clearPending = s.clearPending
    ∧ (handleMessage env now s ev).cacheQueue = s.cacheQueue
    ∧ (handleMessage env now s ev).clearWaiting = s.clearWaiting := by
  have href : refused env ev = true := by
    unfold refused
    simp [hr, ha]
  rw [handleMessage_refused env now s ev hbot href]
  exact ⟨rfl, rfl, rfl, rfl⟩

/-- Witness for the amended C9: `yes` of `U2` in the restricted channel,
while `U2` has a pending request. -/
theorem restricted_rejects_witness :
    (handleMessage limitEnv 0 stateU2 (fromU2Restricted "yes".toList)).effects
        = [Effect.post "C1".toList (restrictedMessage "U2".toList)]
    ∧ (handleMessage limitEnv 0 stateU2 (fromU2Restricted "yes".toList)).clearPending
        = stateU2.clearPending
    ∧ (handleMessage limitEnv 0 stateU2 (fromU2Restricted "yes".toList)).cacheQueue = [] :=
  ⟨(restricted_rejects limitEnv 0 stateU2 (fromU2Restricted "yes".toList) (by decide)
      (by decide) (by decide)).1,
   (restricted_rejects limitEnv 0 stateU2 (fromU2Restricted "yes".toList) (by decide)
      (by decide) (by decide)).2.1,
   (restricted_rejects limitEnv 0 stateU2 (fromU2Restricted "yes".toList) (by decide)
      (by decide) (by decide)).2.2.1⟩

/-- C10: for a message of a permitted sender that contains the trigger
phrase and is not a command, the text has no path token exactly when it has
no `/`; without `/` the sender's pending entry becomes the Everything
request with no URIs and the message's user and channel; with `/` the store
is either unchanged or receives a request whose Everything flag is false. -/
theorem everything_iff_no_slash (env : Env) (now : Nat) (s : State) (ev : MessageEvent)
    (hperm : permitted env ev) (htrig : contains ev.Text (trigger env.cfg) = true)
    (hcmd : isCommand ev.Text = false) :
    (FindAllStringSubmatch ev.Text = [] ↔ '/' ∉ ev.Text)
    ∧ ('/' ∉ ev.Text →
      (handleMessage env now s ev).clearPending ev.User
        = some { Everything := true, URIs := [], Created := now, User := ev.User,
                 Channel := ev.Channel })
    ∧ ('/' ∈ ev.Text →
      (handleMessage env now s ev).clearPending = s.clearPending
      ∨ ∃ p : cacheClearPending, p.Everything = false
          ∧ (handleMessage env now s ev).clearPending = setPending s.clearPending ev.User p) := by
  refine ⟨FindAllStringSubmatch_eq_nil_iff _, ?_, ?_⟩
  · intro hs
    rw [handleMessage_everything env now s ev hperm hcmd htrig
      ((FindAllStringSubmatch_eq_nil_iff _).2 hs)]
    exact setPending_same _ _ _
  · intro hs
    have hm : FindAllStringSubmatch ev.Text ≠ [] := fun h =>
      (FindAllStringSubmatch_eq_nil_iff _).1 h hs
    by_cases hlen : 30 < (collectURIs env.cfg (FindAllStringSubmatch ev.Text)).length
    · left
      rw [handleMessage_tooMuch env now s ev hperm hcmd htrig hm hlen]
      rfl
    · right
      rw [handleMessage_uris env now s ev hperm hcmd htrig hm (by omega)]
      exact ⟨_, rfl, rfl⟩

/-- Witness for C10: `clear cache` creates an Everything request, and
`clear cache /x` creates a request that is not. -/
theorem everything_iff_no_slash_witness :
    (handleMessage limitEnv 9 initState (fromU2 "clear cache".toList)).clearPending "U2".toList
        = some { Everything := true, URIs := [], Created := 9, User := "U2".toList,
                 Channel := "C2".toList }
    ∧ ((handleMessage limitEnv 9 stateU2 (fromU2 (manyPaths 1))).clearPending
          = stateU2.clearPending
      ∨ ∃ p : cacheClearPending, p.Everything = false
          ∧ (handleMessage limitEnv 9 stateU2 (fromU2 (manyPaths 1))).clearPending
              = setPending stateU2.clearPending "U2".toList p) :=
  ⟨(everything_iff_no_slash limitEnv 9 initState (fromU2 "clear cache".toList) (by decide)
      (by decide) (by decide)).2.1 (by decide),
   (everything_iff_no_slash limitEnv 9 stateU2 (fromU2 (manyPaths 1)) (by decide)
      (by decide) (by decide)).2.2 (by decide)⟩

/-! ## The handler, case by case -/

theorem handleMessage_help (env : Env) (now : Nat) (s : State) (ev : MessageEvent)
    (hperm : permitted env ev) (htext : toLower ev.Text = "help".toList) :
    handleMessage env now s ev
      = PostMessage s ev.Channel ("<@".toList ++ ev.User ++ "> ".toList ++ helpMessage) := by
  obtain ⟨hbot, href⟩ := hperm
  unfold refused at href
  unfold handleMessage
  simp only [if_neg hbot, href, htext, if_true, Bool.false_eq_true, if_false]

theorem handleMessage_other (env : Env) (now : Nat) (s : State) (ev : MessageEvent)
    (href : refused env ev = false) (hcmd : isCommand ev.Text = false)
    (htrig : contains ev.Text (trigger env.cfg) = false) :
    handleMessage env now s ev = s := by
  unfold refused at href
  obtain ⟨h1, h2, h3⟩ := isCommand_false _ hcmd
  unfold handleMessage
  simp only [href, if_neg h1, if_neg h2, if_neg h3, htrig, Bool.false_eq_true, if_false,
    ite_self]

theorem isCommand_false_of (text : Str) (h1 : toLower text ≠ "help".toList)
    (h2 : toLower text ≠ "yes".toList) (h3 : toLower text ≠ "no".toList) :
    isCommand text = false := by
  unfold isCommand
  simp only [Bool.or_eq_false_iff, decide_eq_false_iff_not]
  exact ⟨⟨h1, h2⟩, h3⟩

theorem isCommand_true_of (text : Str)
    (h : toLower text = "help".toList ∨ toLower text = "yes".toList
      ∨ toLower text = "no".toList) : isCommand text = true := by
  unfold isCommand
  simp only [Bool.or_eq_true, decide_eq_true_eq]
  rcases h with h | h | h
  · exact Or.inl (Or.inl h)
  · exact Or.inl (Or.inr h)
  · exact Or.inr h

/-- Every way in which handling one message changes the store and the
queue: nothing; the sender's entry moved to the queue; the sender's entry
deleted; or the sender's entry set to a new bounded request of the sender.
The message that is posted, if any, is the only new effect. -/
theorem handleMessage_cases (env : Env) (now : Nat) (s : State) (ev : MessageEvent) :
    (handleMessage env now s ev).clearWaiting = s.clearWaiting
    ∧ ((handleMessage env now s ev).effects = s.effects
      ∨ ∃ text, (handleMessage env now s ev).effects = s.effects ++ [Effect.post ev.Channel text])
    ∧ (((handleMessage env now s ev).clearPending = s.clearPending
          ∧ (handleMessage env now s ev).cacheQueue = s.cacheQueue)
      ∨ (∃ p, s.clearPending ev.User = some p
          ∧ (handleMessage env now s ev).clearPending = deletePending s.clearPending ev.User
          ∧ (handleMessage env now s ev).cacheQueue = s.cacheQueue ++ [p])
      ∨ ((handleMessage env now s ev).clearPending = deletePending s.clearPending ev.User
          ∧ (handleMessage env now s ev).cacheQueue = s.cacheQueue)
      ∨ (∃ p, (handleMessage env now s ev).clearPending = setPending s.clearPending ev.User p
          ∧ (handleMessage env now s ev).cacheQueue = s.cacheQueue
          ∧ p.User = ev.User ∧ boundedRequest p
          ∧ (p.Everything = false → FindAllStringSubmatch ev.Text ≠ []
              ∧ p.URIs = collectURIs env.cfg (FindAllStringSubmatch ev.Text)))) := by
  by_cases hbot : ev.User = env.botUserID
  · rw [handleMessage_bot env now s ev hbot]
    exact ⟨rfl, Or.inl rfl, Or.inl ⟨rfl, rfl⟩⟩
  cases href : refused env ev with
  | true =>
    rw [handleMessage_refused env now s ev hbot href]
    exact ⟨rfl, Or.inr ⟨_, rfl⟩, Or.inl ⟨rfl, rfl⟩⟩
  | false =>
    have hperm : permitted env ev := ⟨hbot, href⟩
    by_cases h1 : toLower ev.Text = "help".toList
    · rw [handleMessage_help env now s ev hperm h1]
      exact ⟨rfl, Or.inr ⟨_, rfl⟩, Or.inl ⟨rfl, rfl⟩⟩
    by_cases h2 : toLower ev.Text = "yes".toList
    · cases hp : s.clearPending ev.User with
      | none =>
        rw [handleMessage_yes_none env now s ev href h2 hp]
        exact ⟨rfl, Or.inl rfl, Or.inl ⟨rfl, rfl⟩⟩
      | some p =>
        rw [handleMessage_yes_some env now s ev p hperm h2 hp]
        exact ⟨rfl, Or.inr ⟨_, rfl⟩, Or.inr (Or.inl ⟨p, rfl, rfl, rfl⟩)⟩
    by_cases h3 : toLower ev.Text = "no".toList
    · cases hp : s.clearPending ev.User with
      | none =>
        rw [handleMessage_no_none env now s ev href h3 hp]
        exact ⟨rfl, Or.inl rfl, Or.inl ⟨rfl, rfl⟩⟩
      | some p =>
        rw [handleMessage_no_some env now s ev p hperm h3 hp]
        exact ⟨rfl, Or.inr ⟨_, rfl⟩, Or.inr (Or.inr (Or.inl ⟨rfl, rfl⟩))⟩
    have hcmd := isCommand_false_of _ h1 h2 h3
    cases htrig : contains ev.Text (trigger env.cfg) with
    | false =>
      rw [handleMessage_other env now s ev href hcmd htrig]
      exact ⟨rfl, Or.inl rfl, Or.inl ⟨rfl, rfl⟩⟩
    | true =>
      by_cases hm : FindAllStringSubmatch ev.Text = []
      · rw [handleMessage_everything env now s ev hperm hcmd htrig hm]
        refine ⟨rfl, Or.inr ⟨_, rfl⟩, Or.inr (Or.inr (Or.inr ⟨_, rfl, rfl, rfl, ?_, ?_⟩))⟩
        · exact ⟨Nat.zero_le _, fun _ => rfl⟩
        · intro h; cases h
      · by_cases hlen : 30 < (collectURIs env.cfg (FindAllStringSubmatch ev.Text)).length
        · rw [handleMessage_tooMuch env now s ev hperm hcmd htrig hm hlen]
          exact ⟨rfl, Or.inr ⟨_, rfl⟩, Or.inl ⟨rfl, rfl⟩⟩
        · rw [handleMessage_uris env now s ev hperm hcmd htrig hm (by omega)]
          refine ⟨rfl, Or.inr ⟨_, rfl⟩, Or.inr (Or.inr (Or.inr ⟨_, rfl, rfl, rfl, ?_, ?_⟩))⟩
          · exact ⟨by simp only; omega, fun h => by cases h⟩
          · intro _; exact ⟨hm, rfl⟩

/-! ## Lemmas on the trailing comma -/

theorem trimSuffix_id (f : Str) (c : Char) (h : f.getLast? ≠ some c) :
    trimSuffix f [c] = f := by
  unfold trimSuffix
  rw [if_neg]
  rw [hasSuffix_singleton]
  exact h

theorem trimSuffix_append (f : Str) (c : Char) : trimSuffix (f ++ [c]) [c] = f := by
  unfold trimSuffix
  rw [if_pos ((hasSuffix_singleton _ _).2 (by simp))]
  simp

/-! ## Theorems on messages without trigger, the executor and isolation -/

/-- C12: handling a message whose text does not contain the trigger phrase
adds or overwrites no entry of the pending store: the store afterwards is
the store before, or the store before without the sender's entry; and when
the text is not a command and the sender is not refused by the authorisation
check, no message is sent, the queue and the store are unchanged. -/
theorem no_trigger_no_pending (env : Env) (now : Nat) (s : State) (ev : MessageEvent)
    (htrig : contains ev.Text (trigger env.cfg) = false) :
    ((handleMessage env now s ev).clearPending = s.clearPending
      ∨ (handleMessage env now s ev).clearPending = deletePending s.clearPending ev.User)
    ∧ (isCommand ev.Text = false → refused env ev = false →
        (handleMessage env now s ev).effects = s.effects
        ∧ (handleMessage env now s ev).cacheQueue = s.cacheQueue
        ∧ (handleMessage env now s ev).clearPending = s.clearPending) := by
  constructor
  · by_cases hbot : ev.User = env.botUserID
    · rw [handleMessage_bot env now s ev hbot]; exact Or.inl rfl
    cases href : refused env ev with
    | true => rw [handleMessage_refused env now s ev hbot href]; exact Or.inl rfl
    | false =>
      have hperm : permitted env ev := ⟨hbot, href⟩
      by_cases h1 : toLower ev.Text = "help".toList
      · rw [handleMessage_help env now s ev hperm h1]; exact Or.inl rfl
      by_cases h2 : toLower ev.Text = "yes".toList
      · cases hp : s.clearPending ev.User with
        | none => rw [handleMessage_yes_none env now s ev href h2 hp]; exact Or.inl rfl
        | some p => rw [handleMessage_yes_some env now s ev p hperm h2 hp]; exact Or.inr rfl
      by_cases h3 : toLower ev.Text = "no".toList
      · cases hp : s.clearPending ev.User with
        | none => rw [handleMessage_no_none env now s ev href h3 hp]; exact Or.inl rfl
        | some p => rw [handleMessage_no_some env now s ev p hperm h3 hp]; exact Or.inr rfl
      rw [handleMessage_other env now s ev href (isCommand_false_of _ h1 h2 h3) htrig]
      exact Or.inl rfl
  · intro hcmd href
    rw [handleMessage_other env now s ev href hcmd htrig]
    exact ⟨rfl, rfl, rfl⟩

/-- Witness for C12: `hello` from `U2`, who has a pending request, changes
nothing. -/
theorem no_trigger_no_pending_witness :
    (handleMessage limitEnv 5 stateU2 (fromU2 "hello".toList)).effects = stateU2.effects
    ∧ (handleMessage limitEnv 5 stateU2 (fromU2 "hello".toList)).cacheQueue = stateU2.cacheQueue
    ∧ (handleMessage limitEnv 5 stateU2 (fromU2 "hello".toList)).clearPending
        = stateU2.clearPending :=
  (no_trigger_no_pending limitEnv 5 stateU2 (fromU2 "hello".toList) (by decide)).2
    (by decide) (by decide)

/-- C15: the executor builds one request per call: with the Everything flag
set it has `purge_everything` true and no file list, whatever URIs the job
carries; with the flag unset it has `purge_everything` unset and the job's
URI list as its file list, in the same order. -/
theorem purge_request (c : cacheClearPending) :
    (c.Everything = true →
      (buildRequest c).PurgeEverything = true ∧ (buildRequest c).Files = []
      ∧ marshal (buildRequest c) = { purge_everything := some true, files := none })
    ∧ (c.Everything = false →
      (buildRequest c).PurgeEverything = false ∧ (buildRequest c).Files = c.URIs
      ∧ (marshal (buildRequest c)).purge_everything = none
      ∧ (marshal (buildRequest c)).files.getD [] = c.URIs)
    ∧ (∀ o, ∃ report, flushJob c o = [Effect.purge c (buildRequest c), Effect.post c.Channel report]) := by
  refine ⟨?_, ?_, ?_⟩
  · intro h
    simp [buildRequest, marshal, h]
  · intro h
    cases hu : c.URIs with
    | nil => simp [buildRequest, marshal, h, hu]
    | cons a t => simp [buildRequest, marshal, h, hu]
  · intro o
    unfold flushJob
    cases doPurge c o with
    | none => exact ⟨_, rfl⟩
    | some err => exact ⟨_, rfl⟩

/-- Witness for C15: a job with the Everything flag set that carries a URL,
and a job with the flag unset. -/
theorem purge_request_witness :
    marshal (buildRequest jobBoth) = { purge_everything := some true, files := none }
    ∧ (buildRequest jobX).Files = ["b/x".toList] :=
  ⟨((purge_request jobBoth).1 (by decide)).2.2, ((purge_request jobX).2.1 (by decide)).2.1⟩

/-- C17: for a fragment that does not end in a comma, `filesFromURI` gives
the same list with and without one trailing comma. -/
theorem trailing_comma (cfg : config) (f : Str) (h : f.getLast? ≠ some ',') :
    filesFromURI cfg (f ++ [',']) = filesFromURI cfg f := by
  unfold filesFromURI
  rw [trimSuffix_append, trimSuffix_id f ',' h]

/-- Witness for C17: `/a,` is purged as `/a`. -/
theorem trailing_comma_witness :
    filesFromURI exampleCfg "/a,".toList = filesFromURI exampleCfg "/a".toList :=
  trailing_comma exampleCfg "/a".toList (by decide)

/-- C19: handling a message of user `u` leaves the pending entry of every
other user as it was, and the queue either is unchanged or receives exactly
the entry that was stored under `u`. -/
theorem requester_isolation (env : Env) (now : Nat) (s : State) (ev : MessageEvent) :
    (∀ v, v ≠ ev.User → (handleMessage env now s ev).clearPending v = s.clearPending v)
    ∧ ((handleMessage env now s ev).cacheQueue = s.cacheQueue
      ∨ ∃ p, s.clearPending ev.User = some p
          ∧ (handleMessage env now s ev).cacheQueue = s.cacheQueue ++ [p]) := by
  obtain ⟨_, _, h⟩ := handleMessage_cases env now s ev
  rcases h with ⟨h1, h2⟩ | ⟨p, hp, h1, h2⟩ | ⟨h1, h2⟩ | ⟨p, h1, h2, _⟩
  · exact ⟨fun v _ => by rw [h1], Or.inl h2⟩
  · exact ⟨fun v hv => by rw [h1]; exact deletePending_other _ _ _ hv, Or.inr ⟨p, hp, h2⟩⟩
  · exact ⟨fun v hv => by rw [h1]; exact deletePending_other _ _ _ hv, Or.inl h2⟩
  · exact ⟨fun v hv => by rw [h1]; exact setPending_other _ _ _ _ hv, Or.inl h2⟩

/-- Witness for C19: a trigger message of `U3` leaves the pending request of
`U2` in place. -/
theorem requester_isolation_witness :
    (handleMessage limitEnv 6 stateU2
        { User := "U3".toList, Channel := "C2".toList, Text := "clear cache /y".toList }).clearPending
      "U2".toList = stateU2.clearPending "U2".toList :=
  (requester_isolation limitEnv 6 stateU2
    { User := "U3".toList, Channel := "C2".toList, Text := "clear cache /y".toList }).1
    "U2".toList (by decide)

/-! ## Lemmas on the dispatcher -/

theorem flushJobs_cons (out : Nat → Outcome) (k : Nat) (v : cacheClearPending)
    (vs : List cacheClearPending) :
    flushJobs out k (v :: vs)
      = Effect.purge v (buildRequest v)
        :: (match doPurge v (out k) with
            | some err => Effect.post v.Channel (failureMessage v err)
            | none => Effect.post v.Channel (doneMessage v))
        :: flushJobs out (k + 1) vs := rfl

theorem flushJobs_length (out : Nat → Outcome) (k : Nat) (js : List cacheClearPending) :
    (flushJobs out k js).length = 2 * js.length := by
  induction js generalizing k with
  | nil => rfl
  | cons v vs ih =>
    rw [flushJobs_cons, List.length_cons, List.length_cons, ih, List.length_cons]
    omega

theorem flushJobs_get (out : Nat → Outcome) (js : List cacheClearPending) (k i : Nat)
    (v : cacheClearPending) (h : js[i]? = some v) :
    (flushJobs out k js)[2 * i]? = some (Effect.purge v (buildRequest v))
    ∧ (flushJobs out k js)[2 * i + 1]?
        = some (match doPurge v (out (k + i)) with
            | some err => Effect.post v.Channel (failureMessage v err)
            | none => Effect.post v.Channel (doneMessage v)) := by
  induction js generalizing k i with
  | nil => simp at h
  | cons w ws ih =>
    cases i with
    | zero =>
      simp only [List.getElem?_cons_zero, Option.some.injEq] at h
      subst h
      rw [flushJobs_cons]
      constructor
      · rfl
      · rw [Nat.mul_zero, List.getElem?_cons_succ, List.getElem?_cons_zero]
        rfl
    | succ i =>
      rw [List.getElem?_cons_succ] at h
      obtain ⟨h1, h2⟩ := ih (k + 1) i h
      have e1 : 2 * (i + 1) = (2 * i + 1) + 1 := by omega
      have e3 : k + 1 + i = k + (i + 1) := by omega
      rw [flushJobs_cons, e1, List.getElem?_cons_succ, List.getElem?_cons_succ,
        List.getElem?_cons_succ, List.getElem?_cons_succ, ← e3]
      exact ⟨h1, h2⟩

theorem executed_append (a b : List Effect) : executed (a ++ b) = executed a ++ executed b := by
  unfold executed
  exact List.filterMap_append _ _ _

theorem executed_flushJobs (out : Nat → Outcome) (k : Nat) (js : List cacheClearPending) :
    executed (flushJobs out k js) = js := by
  induction js generalizing k with
  | nil => rfl
  | cons v vs ih =>
    have hcons : executed (flushJobs out k (v :: vs)) = v :: executed (flushJobs out (k + 1) vs) := by
      rw [flushJobs_cons]
      unfold executed
      cases doPurge v (out k) with
      | none => rfl
      | some err => rfl
    rw [hcons, ih]

theorem tick_clearWaiting (out : Nat → Outcome) (s : State) : (tick out s).clearWaiting = [] := by
  unfold tick
  split
  · rfl
  · rename_i h
    exact List.length_eq_zero.1 (by omega)

theorem tick_of_ne (out : Nat → Outcome) (s : State) (h : s.clearWaiting ≠ []) :
    tick out s
      = { s with effects := s.effects ++ flushJobs out 0 s.clearWaiting, clearWaiting := [] } := by
  unfold tick
  rw [if_pos]
  exact List.length_pos.2 h

theorem tick_executed (out : Nat → Outcome) (s : State) :
    executed (tick out s).effects = executed s.effects ++ s.clearWaiting := by
  unfold tick
  split
  · simp only
    rw [executed_append, executed_flushJobs]
  · rename_i h
    have h0 : s.clearWaiting = [] := List.length_eq_zero.1 (by omega)
    rw [h0, List.append_nil]

theorem tick_frame (out : Nat → Outcome) (s : State) :
    (tick out s).clearPending = s.clearPending ∧ (tick out s).cacheQueue = s.cacheQueue := by
  unfold tick
  split
  · exact ⟨rfl, rfl⟩
  · exact ⟨rfl, rfl⟩

theorem enqueuedBeforeLastTick_of_no_tick (es : List DEvent) (h : hasTick es = false) :
    enqueuedBeforeLastTick es = [] := by
  cases es with
  | nil => rfl
  | cons e es =>
    cases e with
    | enqueue q =>
      have h1 : hasTick es = false := h
      simp [enqueuedBeforeLastTick, h1]
    | tick out => cases h

theorem dispatchAll_cons (s : State) (e : DEvent) (es : List DEvent) :
    dispatchAll s (e :: es) = dispatchAll (dispatch s e) es := rfl

theorem dispatchAll_executed (es : List DEvent) (s : State) :
    executed (dispatchAll s es).effects
      = executed s.effects
        ++ (if hasTick es then s.clearWaiting ++ enqueuedBeforeLastTick es else []) := by
  induction es generalizing s with
  | nil => simp [dispatchAll, hasTick]
  | cons e es ih =>
    rw [dispatchAll_cons, ih]
    cases e with
    | enqueue q =>
      have hs : hasTick (DEvent.enqueue q :: es) = hasTick es := rfl
      rw [hs]
      cases ht : hasTick es with
      | false => simp [dispatch]
      | true => simp [dispatch, enqueuedBeforeLastTick, ht]
    | tick out =>
      have hs : hasTick (DEvent.tick out :: es) = true := rfl
      have he : enqueuedBeforeLastTick (DEvent.tick out :: es) = enqueuedBeforeLastTick es := rfl
      have hd : dispatch s (DEvent.tick out) = tick out s := rfl
      rw [hs, he, hd, tick_executed, tick_clearWaiting]
      cases ht : hasTick es with
      | false => simp [enqueuedBeforeLastTick_of_no_tick es ht]
      | true => simp

theorem dispatchAll_conserved (es : List DEvent) (s : State) :
    executed (dispatchAll s es).effects ++ (dispatchAll s es).clearWaiting
      = executed s.effects ++ s.clearWaiting ++ enqueued es := by
  induction es generalizing s with
  | nil => simp [dispatchAll, enqueued]
  | cons e es ih =>
    rw [dispatchAll_cons, ih]
    cases e with
    | enqueue q => simp [dispatch, enqueued]
    | tick out =>
      have hd : dispatch s (DEvent.tick out) = tick out s := rfl
      have he : enqueued (DEvent.tick out :: es) = enqueued es := rfl
      rw [hd, he, tick_executed, tick_clearWaiting, List.append_nil]

/-! ## Theorems on the dispatcher -/

/-- C13: one flush tick on the non-empty buffer j1..jn adds exactly 2n
effects: at position 2i the call of `do` on ji, and right after it the
report to ji's channel, addressed to ji's user: the failure report ending
with the error text of `do` when the call failed, the success report
otherwise; this holds for every job whatever the outcomes of the others.
The buffer is then empty, the store and the queue are unchanged. -/
theorem flush_tick (out : Nat → Outcome) (s : State) (hne : s.clearWaiting ≠ []) :
    (tick out s).clearWaiting = []
    ∧ (tick out s).clearPending = s.clearPending
    ∧ (tick out s).cacheQueue = s.cacheQueue
    ∧ ∃ new, (tick out s).effects = s.effects ++ new
      ∧ new.length = 2 * s.clearWaiting.length
      ∧ executed new = s.clearWaiting
      ∧ ∀ i v, s.clearWaiting[i]? = some v →
          new[2 * i]? = some (Effect.purge v (buildRequest v))
          ∧ (∀ err, doPurge v (out i) = some err →
              new[2 * i + 1]? = some (Effect.post v.Channel (failureMessage v err))
              ∧ err <:+ failureMessage v err
              ∧ ("<@".toList ++ v.User) <+: failureMessage v err)
          ∧ (doPurge v (out i) = none →
              new[2 * i + 1]? = some (Effect.post v.Channel (doneMessage v))
              ∧ ("<@".toList ++ v.User) <+: doneMessage v) := by
  refine ⟨tick_clearWaiting out s, (tick_frame out s).1, (tick_frame out s).2,
    flushJobs out 0 s.clearWaiting, by rw [tick_of_ne out s hne], flushJobs_length _ _ _,
    executed_flushJobs _ _ _, ?_⟩
  intro i v hv
  obtain ⟨h1, h2⟩ := flushJobs_get out s.clearWaiting 0 i v hv
  rw [Nat.zero_add] at h2
  refine ⟨h1, ?_, ?_⟩
  · intro err herr
    rw [herr] at h2
    refine ⟨h2, List.suffix_append _ _, ?_⟩
    unfold failureMessage
    rw [List.append_assoc]
    exact List.prefix_append _ _
  · intro hnone
    rw [hnone] at h2
    refine ⟨h2, ?_⟩
    unfold doneMessage
    split
    · rw [List.append_assoc]
      exact List.prefix_append _ _
    · exact List.prefix_append _ _

/-- Witness for C13: a flush of three jobs in which the first purge fails. -/
theorem flush_tick_witness :
    (tick firstFails { initState with clearWaiting := [jobX, jobAll, jobBoth] }).effects
      = [Effect.purge jobX (buildRequest jobX),
         Effect.post "C2".toList (failureMessage jobX
           "error sending request to CloudFlare: timeout".toList),
         Effect.purge jobAll (buildRequest jobAll),
         Effect.post "C3".toList (doneMessage jobAll),
         Effect.purge jobBoth (buildRequest jobBoth),
         Effect.post "C2".toList (doneMessage jobBoth)]
    ∧ (tick firstFails { initState with clearWaiting := [jobX, jobAll, jobBoth] }).clearWaiting
      = [] :=
  ⟨by decide,
   (flush_tick firstFails { initState with clearWaiting := [jobX, jobAll, jobBoth] }
     (by decide)).1⟩

/-- C14: for every sequence of enqueue and tick events applied from an empty
buffer, whatever the outcomes, the jobs on which `do` is called over the
run are exactly the jobs enqueued before the last tick, in enqueue order;
the buffer is empty after every tick; and every enqueued job is either
among the executed ones or still in the buffer, never both. -/
theorem dispatcher_run (s0 : State) (es : List DEvent) (h0 : s0.clearWaiting = []) :
    executed (dispatchAll s0 es).effects = executed s0.effects ++ enqueuedBeforeLastTick es
    ∧ (∀ es1 out, (dispatchAll s0 (es1 ++ [DEvent.tick out])).clearWaiting = [])
    ∧ executed (dispatchAll s0 es).effects ++ (dispatchAll s0 es).clearWaiting
        = executed s0.effects ++ enqueued es := by
  refine ⟨?_, ?_, ?_⟩
  · rw [dispatchAll_executed, h0, List.nil_append]
    cases ht : hasTick es with
    | false => simp [enqueuedBeforeLastTick_of_no_tick es ht]
    | true => simp
  · intro es1 out
    unfold dispatchAll
    rw [List.foldl_append]
    exact tick_clearWaiting out _
  · rw [dispatchAll_conserved, h0, List.append_nil]

/-- Witness for C14: a job whose purge fails is not executed again by the
two later ticks. -/
theorem dispatcher_run_witness :
    executed (dispatchAll initState
        [DEvent.enqueue jobX, DEvent.tick allFail, DEvent.enqueue jobAll, DEvent.tick allOk,
         DEvent.tick allOk, DEvent.enqueue jobBoth]).effects
      = [jobX, jobAll] :=
  (dispatcher_run initState
    [DEvent.enqueue jobX, DEvent.tick allFail, DEvent.enqueue jobAll, DEvent.tick allOk,
     DEvent.tick allOk, DEvent.enqueue jobBoth] rfl).1

/-! ## Lemmas on the invariant -/

theorem deletePending_some (m : Str → Option cacheClearPending) (u v : Str)
    (q : cacheClearPending) (h : deletePending m u v = some q) : m v = some q := by
  unfold deletePending at h
  split at h
  · cases h
  · exact h

theorem setPending_some (m : Str → Option cacheClearPending) (u v : Str)
    (p q : cacheClearPending) (h : setPending m u p v = some q) :
    (v = u ∧ q = p) ∨ m v = some q := by
  unfold setPending at h
  split at h
  · rename_i hv
    cases h
    exact Or.inl ⟨hv, rfl⟩
  · exact Or.inr h

theorem Invariant_initState : Invariant initState := by
  refine ⟨?_, ?_, ?_⟩
  · intro u p h
    cases h
  · intro j h
    cases h
  · intro j h
    cases h

theorem Invariant_handleMessage (env : Env) (now : Nat) (s : State) (ev : MessageEvent)
    (h : Invariant s) : Invariant (handleMessage env now s ev) := by
  obtain ⟨hP, hQ, hW⟩ := h
  obtain ⟨hw, _, hc⟩ := handleMessage_cases env now s ev
  unfold Invariant
  rw [hw]
  rcases hc with ⟨h1, h2⟩ | ⟨p, hp, h1, h2⟩ | ⟨h1, h2⟩ | ⟨p, h1, h2, hu, hb, _⟩
  · rw [h1, h2]
    exact ⟨hP, hQ, hW⟩
  · rw [h1, h2]
    refine ⟨fun u q hq => hP u q (deletePending_some _ _ _ _ hq), ?_, hW⟩
    intro j hj
    rcases List.mem_append.1 hj with hj | hj
    · exact hQ j hj
    · rw [List.mem_singleton] at hj
      rw [hj]
      exact (hP _ p hp).2
  · rw [h1, h2]
    exact ⟨fun u q hq => hP u q (deletePending_some _ _ _ _ hq), hQ, hW⟩
  · rw [h1, h2]
    refine ⟨?_, hQ, hW⟩
    intro u q hq
    rcases setPending_some _ _ _ _ _ hq with ⟨hv, hqp⟩ | hq
    · rw [hqp, hv]
      exact ⟨hu, hb⟩
    · exact hP u q hq

theorem Invariant_receive (s : State) (h : Invariant s) : Invariant (receive s) := by
  obtain ⟨hP, hQ, hW⟩ := h
  cases hq : s.cacheQueue with
  | nil =>
    have hr : receive s = s := by
      unfold receive
      rw [hq]
    rw [hr]
    exact ⟨hP, hQ, hW⟩
  | cons q rest =>
    have hr : receive s
        = { s with cacheQueue := rest, clearWaiting := s.clearWaiting ++ [q] } := by
      unfold receive
      rw [hq]
    rw [hr]
    rw [hq] at hQ
    refine ⟨hP, fun j hj => hQ j (List.mem_cons_of_mem q hj), ?_⟩
    intro j hj
    rcases List.mem_append.1 hj with hj | hj
    · exact hW j hj
    · rw [List.mem_singleton] at hj
      rw [hj]
      exact hQ q (List.mem_cons_self q rest)

theorem Invariant_tick (out : Nat → Outcome) (s : State) (h : Invariant s) :
    Invariant (tick out s) := by
  obtain ⟨hP, hQ, hW⟩ := h
  unfold Invariant
  rw [tick_clearWaiting, (tick_frame out s).1, (tick_frame out s).2]
  exact ⟨hP, hQ, fun j hj => by cases hj⟩

theorem Invariant_sysRun (env : Env) (es : List SysEvent) (s : State) (h : Invariant s) :
    Invariant (sysRun env s es) := by
  induction es generalizing s with
  | nil => exact h
  | cons e es ih =>
    have hstep : Invariant (sysStep env s e) := by
      cases e with
      | message now ev => exact Invariant_handleMessage env now s ev h
      | receive => exact Invariant_receive s h
      | tick out => exact Invariant_tick out s h
    exact ih _ hstep

/-! ## Lemmas on the derived list -/

theorem collectURIs_foldl (cfg : config) (ms : List (List Str)) (acc : List Str) :
    ms.foldl (fun uris mtch =>
        match mtch with
        | _ :: g :: _ => uris ++ filesFromURI cfg g
        | _ => uris) acc
      = acc ++ collectURIs cfg ms := by
  unfold collectURIs
  induction ms generalizing acc with
  | nil => simp
  | cons m ms ih =>
    rw [List.foldl_cons, List.foldl_cons, ih, ih (match m with
      | _ :: g :: _ => [] ++ filesFromURI cfg g
      | _ => [])]
    rcases m with _ | ⟨a, _ | ⟨g, t⟩⟩
    · simp
    · simp
    · simp

theorem collectURIs_cons (cfg : config) (w c : Str) (ms : List (List Str)) :
    collectURIs cfg ([w, c] :: ms) = filesFromURI cfg c ++ collectURIs cfg ms := by
  have h := collectURIs_foldl cfg ms ([] ++ filesFromURI cfg c)
  rw [List.nil_append] at h
  exact h

theorem findFirst_shape (s : Str) (m : List Str) (rest : Str)
    (h : findFirst s = some (m, rest)) : ∃ w c, m = [w, c] := by
  induction s with
  | nil => cases h
  | cons a t ih =>
    unfold findFirst at h
    split at h
    · cases h
      exact ⟨_, _, rfl⟩
    · exact ih h

theorem FindAllStringSubmatch_shape (s : Str) (h : FindAllStringSubmatch s ≠ []) :
    ∃ w c ms, FindAllStringSubmatch s = [w, c] :: ms := by
  unfold FindAllStringSubmatch at h ⊢
  cases hn : s.length with
  | zero => rw [hn] at h; exact absurd rfl h
  | succ n =>
    rw [hn] at h
    unfold findAllFuel at h ⊢
    cases hf : findFirst s with
    | none => rw [hf] at h; exact absurd rfl h
    | some r =>
      obtain ⟨m, rest⟩ := r
      obtain ⟨w, c, hm⟩ := findFirst_shape s m rest hf
      exact ⟨w, c, _, by rw [hm]⟩

theorem collectURIs_ne_nil (cfg : config) (s : Str) (hb : cfg.URLBases ≠ [])
    (h : FindAllStringSubmatch s ≠ []) : collectURIs cfg (FindAllStringSubmatch s) ≠ [] := by
  obtain ⟨w, c, ms, hm⟩ := FindAllStringSubmatch_shape s h
  rw [hm, collectURIs_cons]
  intro hnil
  have h1 := (List.append_eq_nil.1 hnil).1
  have h2 := filesFromURI_length cfg c
  rw [h1, List.length_nil] at h2
  have h3 : 0 < cfg.URLBases.length := List.length_pos.2 hb
  have h4 : 0 < cfg.URLBases.length * (1 + cfg.URLSuffixes.length) :=
    Nat.mul_pos h3 (by omega)
  omega

/-! ## Theorems on reachable states and stored requests -/

/-- C20: in every state reached from start-up by handled messages, receives
of the dispatcher and flush ticks, every pending entry is stored under its
own user, has at most 30 URIs and has none when its Everything flag is set,
and every job of the queue and of the buffer satisfies the same bound and
the same condition on the flag. -/
theorem reachable_invariant (env : Env) (es : List SysEvent) :
    (∀ u p, (sysRun env initState es).clearPending u = some p →
      p.User = u ∧ p.URIs.length ≤ 30 ∧ (p.Everything = true → p.URIs = []))
    ∧ (∀ j, j ∈ (sysRun env initState es).cacheQueue ∨ j ∈ (sysRun env initState es).clearWaiting →
      j.URIs.length ≤ 30 ∧ (j.Everything = true → j.URIs = [])) := by
  obtain ⟨hP, hQ, hW⟩ := Invariant_sysRun env es initState Invariant_initState
  refine ⟨fun u p h => ⟨(hP u p h).1, (hP u p h).2⟩, ?_⟩
  intro j hj
  rcases hj with hj | hj
  · exact hQ j hj
  · exact hW j hj

/-- Witness for C20: after a trigger message, its confirmation and the
receive of the dispatcher, the job in the buffer is bounded. -/
theorem reachable_invariant_witness :
    (sysRun limitEnv initState
        [SysEvent.message 1 (fromU2 (manyPaths 2)), SysEvent.message 2 (fromU2 "yes".toList),
         SysEvent.receive]).clearWaiting
      = [{ Everything := false, URIs := ["b/x".toList, "b/x".toList], Created := 1,
           User := "U2".toList, Channel := "C2".toList }]
    ∧ (2 ≤ 30 ∧ (false = true → ["b/x".toList, "b/x".toList] = [])) :=
  ⟨by decide,
   (reachable_invariant limitEnv
      [SysEvent.message 1 (fromU2 (manyPaths 2)), SysEvent.message 2 (fromU2 "yes".toList),
       SysEvent.receive]).2
      { Everything := false, URIs := ["b/x".toList, "b/x".toList], Created := 1,
        User := "U2".toList, Channel := "C2".toList }
      (Or.inr (by decide))⟩

/-- C16, as stated, fails: with no base configured, `clear cache /x` stores
a request that is not for everything and has no URI, for which the executor
builds a body with neither `purge_everything` nor `files`. -/
theorem no_base_empty_request :
    permitted noBaseEnv (fromU2 "clear cache /x".toList)
    ∧ contains (fromU2 "clear cache /x".toList).Text (trigger noBaseEnv.cfg) = true
    ∧ (handleMessage noBaseEnv 1 initState (fromU2 "clear cache /x".toList)).clearPending
        "U2".toList
        = some emptyJob
    ∧ marshal (buildRequest emptyJob) = { purge_everything := none, files := none } := by
  decide

/-! ## Lemmas on the bodies sent -/

theorem marshal_buildRequest (v : cacheClearPending) (h : hasScope v) :
    marshal (buildRequest v) ≠ { purge_everything := none, files := none }
    ∧ ((buildRequest v).PurgeEverything = true ∨ (buildRequest v).Files ≠ []) := by
  cases hE : v.Everything with
  | true =>
    have hb : buildRequest v = { PurgeEverything := true, Files := [] } := by
      unfold buildRequest
      rw [hE]
      rfl
    rw [hb]
    refine ⟨?_, Or.inl rfl⟩
    intro hm
    have h1 := congrArg purgeBody.purge_everything hm
    simp [marshal] at h1
  | false =>
    have hu : v.URIs ≠ [] := by
      rcases h with h | h
      · rw [hE] at h
        cases h
      · exact h
    have hb : buildRequest v = { PurgeEverything := false, Files := v.URIs } := by
      unfold buildRequest
      rw [hE]
      rfl
    rw [hb]
    refine ⟨?_, Or.inr hu⟩
    intro hm
    have h1 := congrArg purgeBody.files hm
    have hlen : ¬ v.URIs.length = 0 := by
      rw [List.length_eq_zero]
      exact hu
    simp [marshal, hlen] at h1

theorem flushJobs_purge_mem (out : Nat → Outcome) (js : List cacheClearPending) (k : Nat)
    (v : cacheClearPending) (req : cloudflareRequest)
    (h : Effect.purge v req ∈ flushJobs out k js) : v ∈ js ∧ req = buildRequest v := by
  induction js generalizing k with
  | nil => cases h
  | cons w ws ih =>
    rw [flushJobs_cons] at h
    rcases List.mem_cons.1 h with h1 | h1
    · cases h1
      exact ⟨List.mem_cons_self _ _, rfl⟩
    · rcases List.mem_cons.1 h1 with h2 | h2
      · cases hd : doPurge w (out k) with
        | none => rw [hd] at h2; cases h2
        | some err => rw [hd] at h2; cases h2
      · obtain ⟨hv, hr⟩ := ih (k + 1) h2
        exact ⟨List.mem_cons_of_mem _ hv, hr⟩

theorem tick_of_nil (out : Nat → Outcome) (s : State) (h : s.clearWaiting = []) :
    tick out s = s := by
  unfold tick
  rw [if_neg]
  rw [h]
  exact Nat.lt_irrefl 0

theorem Scoped_initState : Scoped initState := by
  refine ⟨?_, ?_, ?_, ?_⟩
  · intro u p h
    cases h
  · intro j h
    cases h
  · intro j h
    cases h
  · intro v req h
    cases h

theorem Scoped_handleMessage (env : Env) (now : Nat) (s : State) (ev : MessageEvent)
    (hbases : env.cfg.URLBases ≠ []) (h : Scoped s) : Scoped (handleMessage env now s ev) := by
  obtain ⟨hP, hQ, hW, hE⟩ := h
  obtain ⟨hw, he, hc⟩ := handleMessage_cases env now s ev
  have hE2 : ∀ v req, Effect.purge v req ∈ (handleMessage env now s ev).effects →
      req = buildRequest v ∧ hasScope v := by
    intro v req hm
    rcases he with he | ⟨text, he⟩
    · rw [he] at hm
      exact hE v req hm
    · rw [he] at hm
      rcases List.mem_append.1 hm with hm | hm
      · exact hE v req hm
      · rw [List.mem_singleton] at hm
        cases hm
  unfold Scoped
  rw [hw]
  rcases hc with ⟨h1, h2⟩ | ⟨p, hp, h1, h2⟩ | ⟨h1, h2⟩ | ⟨p, h1, h2, _, _, hnew⟩
  · rw [h1, h2]
    exact ⟨hP, hQ, hW, hE2⟩
  · rw [h1, h2]
    refine ⟨fun u q hq => hP u q (deletePending_some _ _ _ _ hq), ?_, hW, hE2⟩
    intro j hj
    rcases List.mem_append.1 hj with hj | hj
    · exact hQ j hj
    · rw [List.mem_singleton] at hj
      rw [hj]
      exact hP _ p hp
  · rw [h1, h2]
    exact ⟨fun u q hq => hP u q (deletePending_some _ _ _ _ hq), hQ, hW, hE2⟩
  · rw [h1, h2]
    refine ⟨?_, hQ, hW, hE2⟩
    intro u q hq
    rcases setPending_some _ _ _ _ _ hq with ⟨_, hqp⟩ | hq
    · rw [hqp]
      cases hEv : p.Everything with
      | true => exact Or.inl hEv
      | false =>
        obtain ⟨hm, hu⟩ := hnew hEv
        right
        rw [hu]
        exact collectURIs_ne_nil env.cfg ev.Text hbases hm
    · exact hP u q hq

theorem Scoped_receive (s : State) (h : Scoped s) : Scoped (receive s) := by
  obtain ⟨hP, hQ, hW, hE⟩ := h
  cases hq : s.cacheQueue with
  | nil =>
    have hr : receive s = s := by
      unfold receive
      rw [hq]
    rw [hr]
    exact ⟨hP, hQ, hW, hE⟩
  | cons q rest =>
    have hr : receive s
        = { s with cacheQueue := rest, clearWaiting := s.clearWaiting ++ [q] } := by
      unfold receive
      rw [hq]
    rw [hr]
    rw [hq] at hQ
    refine ⟨hP, fun j hj => hQ j (List.mem_cons_of_mem q hj), ?_, hE⟩
    intro j hj
    rcases List.mem_append.1 hj with hj | hj
    · exact hW j hj
    · rw [List.mem_singleton] at hj
      rw [hj]
      exact hQ q (List.mem_cons_self q rest)

theorem Scoped_tick (out : Nat → Outcome) (s : State) (h : Scoped s) : Scoped (tick out s) := by
  by_cases hne : s.clearWaiting = []
  · rw [tick_of_nil out s hne]
    exact h
  · obtain ⟨hP, hQ, hW, hE⟩ := h
    rw [tick_of_ne out s hne]
    unfold Scoped
    refine ⟨hP, hQ, ?_, ?_⟩
    · intro j hj
      cases hj
    · intro v req hm
      rcases List.mem_append.1 hm with hm | hm
      · exact hE v req hm
      · obtain ⟨hv, hr⟩ := flushJobs_purge_mem out s.clearWaiting 0 v req hm
        exact ⟨hr, hW v hv⟩

theorem Scoped_sysRun (env : Env) (hbases : env.cfg.URLBases ≠ []) (es : List SysEvent)
    (s : State) (h : Scoped s) : Scoped (sysRun env s es) := by
  induction es generalizing s with
  | nil => exact h
  | cons e es ih =>
    have hstep : Scoped (sysStep env s e) := by
      cases e with
      | message now ev => exact Scoped_handleMessage env now s ev hbases h
      | receive => exact Scoped_receive s h
      | tick out => exact Scoped_tick out s h
    exact ih _ hstep

/-- C16, amended: when at least one base is configured, every trigger
message of a permitted sender with a path token and at most 30 derived URIs
stores a request whose Everything flag is unset and whose URI list is not
empty; and in every run from start-up (messages, receives of the dispatcher
and flush ticks) every call of the executor builds a body that has
`purge_everything` or at least one file. -/
theorem stored_request_nonempty (env : Env) (hbases : env.cfg.URLBases ≠ []) :
    (∀ now s ev, permitted env ev → contains ev.Text (trigger env.cfg) = true →
      FindAllStringSubmatch ev.Text ≠ [] →
      (collectURIs env.cfg (FindAllStringSubmatch ev.Text)).length ≤ 30 →
      ∃ p, (handleMessage env now s ev).clearPending ev.User = some p
        ∧ p.Everything = false ∧ p.URIs ≠ []
        ∧ (marshal (buildRequest p)).files = some p.URIs)
    ∧ (∀ es v req, Effect.purge v req ∈ (sysRun env initState es).effects →
      marshal req ≠ { purge_everything := none, files := none }
      ∧ (req.PurgeEverything = true ∨ req.Files ≠ [])) := by
  constructor
  · intro now s ev hperm htrig htok hlim
    have hslash : '/' ∈ ev.Text := by
      by_contra hc
      exact htok ((FindAllStringSubmatch_eq_nil_iff _).2 hc)
    have hcmd := isCommand_of_slash _ hslash
    have hne := collectURIs_ne_nil env.cfg ev.Text hbases htok
    rw [handleMessage_uris env now s ev hperm hcmd htrig htok hlim]
    refine ⟨_, setPending_same _ _ _, rfl, hne, ?_⟩
    have hlen : ¬ (collectURIs env.cfg (FindAllStringSubmatch ev.Text)).length = 0 := by
      rw [List.length_eq_zero]
      exact hne
    simp only [marshal, buildRequest, Bool.false_eq_true, if_false, if_neg hlen]
  · intro es v req hm
    obtain ⟨_, _, _, hE⟩ := Scoped_sysRun env hbases es initState Scoped_initState
    obtain ⟨hr, hs⟩ := hE v req hm
    rw [hr]
    exact marshal_buildRequest v hs

/-- Witness for the amended C16: with base `b`, `clear cache /x` stores the
request for `b/x`, and after `yes`, the receive and a flush tick the body
sent has that file. -/
theorem stored_request_nonempty_witness :
    (∃ p, (handleMessage limitEnv 1 initState (fromU2 (manyPaths 1))).clearPending "U2".toList
        = some p
      ∧ p.Everything = false ∧ p.URIs ≠ []
      ∧ (marshal (buildRequest p)).files = some p.URIs)
    ∧ (marshal (buildRequest jobX) ≠ { purge_everything := none, files := none }
      ∧ ((buildRequest jobX).PurgeEverything = true ∨ (buildRequest jobX).Files ≠ [])) :=
  ⟨(stored_request_nonempty limitEnv (by decide)).1 1 initState (fromU2 (manyPaths 1))
      (by decide) (by decide) (by decide) (by decide),
   (stored_request_nonempty limitEnv (by decide)).2
      [SysEvent.message 1 (fromU2 (manyPaths 1)), SysEvent.message 2 (fromU2 "yes".toList),
       SysEvent.receive, SysEvent.tick allOk]
      jobX (buildRequest jobX) (by decide)⟩

/-! ## Lemmas on the commands -/

theorem toLower_append (a b : Str) : toLower (a ++ b) = toLower a ++ toLower b := by
  unfold toLower
  exact List.map_append _ _ _

theorem toLower_length (a : Str) : (toLower a).length = a.length := by
  unfold toLower
  exact List.length_map _ _

theorem isCommand_true (text : Str) (h : isCommand text = true) :
    toLower text = "help".toList ∨ toLower text = "yes".toList
      ∨ toLower text = "no".toList := by
  unfold isCommand at h
  simp only [Bool.or_eq_true, decide_eq_true_eq] at h
  rcases h with (h | h) | h
  · exact Or.inl h
  · exact Or.inr (Or.inl h)
  · exact Or.inr (Or.inr h)

theorem command_infix (x y a b : Str) (hx : x = "help".toList ∨ x = "yes".toList ∨ x = "no".toList)
    (hy : y = "help".toList ∨ y = "yes".toList ∨ y = "no".toList)
    (h : a ++ x ++ b = y) : a = [] ∧ b = [] := by
  have hinf : x <:+: y := ⟨a, b, h⟩
  have hlen : a.length + x.length + b.length = y.length := by
    rw [← h, List.length_append, List.length_append]
  have hxy : x = y := by
    rcases hx with rfl | rfl | rfl <;> rcases hy with rfl | rfl | rfl <;>
      first
        | rfl
        | exact absurd hinf (by decide)
  rw [hxy] at hlen
  exact ⟨List.length_eq_zero.1 (by omega), List.length_eq_zero.1 (by omega)⟩

theorem isCommand_surrounded (a w b : Str) (hw : isCommand w = true)
    (hab : a ≠ [] ∨ b ≠ []) : isCommand (a ++ w ++ b) = false := by
  cases hc : isCommand (a ++ w ++ b) with
  | false => rfl
  | true =>
    have h1 := isCommand_true _ hc
    have h2 := isCommand_true _ hw
    have h3 : toLower a ++ toLower w ++ toLower b = toLower (a ++ w ++ b) := by
      rw [toLower_append, toLower_append]
    obtain ⟨ha, hb⟩ := command_infix _ _ _ _ h2 h1 h3
    have ha2 : a = [] := List.length_eq_zero.1 (by rw [← toLower_length, ha]; rfl)
    have hb2 : b = [] := List.length_eq_zero.1 (by rw [← toLower_length, hb]; rfl)
    rcases hab with h | h
    · exact absurd ha2 h
    · exact absurd hb2 h

theorem third_char_ne (pre x y : Str) (c d : Char) (hx : x[2]? = some c)
    (hy : y[2]? = some d) (hcd : c ≠ d) : pre ++ x ≠ pre ++ y := by
  intro h
  have h1 : x = y := List.append_cancel_left h
  rw [h1, hy] at hx
  exact hcd (Option.some.inj hx).symm

theorem effects_ne_self (l : List Effect) (e : Effect) : l ≠ l ++ [e] := by
  intro h
  have h1 := congrArg List.length h
  rw [List.length_append, List.length_singleton] at h1
  omega

theorem post_text_ne (l : List Effect) (c x y : Str) (h : x ≠ y) :
    l ++ [Effect.post c x] ≠ l ++ [Effect.post c y] := by
  intro h1
  have h2 := List.append_cancel_left h1
  simp only [List.cons.injEq, Effect.post.injEq, true_and, and_true] at h2
  exact h h2

set_option maxRecDepth 10000 in
theorem helpText_third (u : Str) :
    "<@".toList ++ u ++ "> ".toList ++ helpMessage
      = ("<@".toList ++ u) ++ ("> ".toList ++ helpMessage)
    ∧ ("> ".toList ++ helpMessage)[2]? = some 'H' :=
  ⟨List.append_assoc _ _ _, rfl⟩

set_option maxRecDepth 10000 in
/-- When the text is not a command, no help is sent, nothing is queued and
no entry is removed from the store. -/
theorem handleMessage_not_command (env : Env) (now : Nat) (s : State) (ev : MessageEvent)
    (hcmd : isCommand ev.Text = false) :
    (handleMessage env now s ev).cacheQueue = s.cacheQueue
    ∧ (∀ v p, s.clearPending v = some p → ∃ q, (handleMessage env now s ev).clearPending v = some q)
    ∧ (handleMessage env now s ev).effects
        ≠ s.effects ++ [Effect.post ev.Channel
            ("<@".toList ++ ev.User ++ "> ".toList ++ helpMessage)] := by
  obtain ⟨hh1, hh2⟩ := helpText_third ev.User
  rw [hh1]
  by_cases hbot : ev.User = env.botUserID
  · rw [handleMessage_bot env now s ev hbot]
    exact ⟨rfl, fun v p h => ⟨p, h⟩, effects_ne_self _ _⟩
  cases href : refused env ev with
  | true =>
    rw [handleMessage_refused env now s ev hbot href]
    refine ⟨rfl, fun v p h => ⟨p, h⟩, ?_⟩
    exact post_text_ne _ _ _ _ (third_char_ne _ _ _ 'S' 'H' rfl hh2 (by decide))
  | false =>
    have hperm : permitted env ev := ⟨hbot, href⟩
    cases htrig : contains ev.Text (trigger env.cfg) with
    | false =>
      rw [handleMessage_other env now s ev href hcmd htrig]
      exact ⟨rfl, fun v p h => ⟨p, h⟩, effects_ne_self _ _⟩
    | true =>
      have hset : ∀ (q : cacheClearPending) v p, s.clearPending v = some p →
          ∃ r, setPending s.clearPending ev.User q v = some r := by
        intro q v p h
        by_cases hv : v = ev.User
        · exact ⟨q, by rw [hv]; exact setPending_same _ _ _⟩
        · exact ⟨p, by rw [setPending_other _ _ _ _ hv]; exact h⟩
      by_cases hm : FindAllStringSubmatch ev.Text = []
      · rw [handleMessage_everything env now s ev hperm hcmd htrig hm]
        refine ⟨rfl, hset _, ?_⟩
        exact post_text_ne _ _ _ _ (third_char_ne _ _ _ 'I' 'H' rfl hh2 (by decide))
      · by_cases hlen : 30 < (collectURIs env.cfg (FindAllStringSubmatch ev.Text)).length
        · rw [handleMessage_tooMuch env now s ev hperm hcmd htrig hm hlen]
          refine ⟨rfl, fun v p h => ⟨p, h⟩, ?_⟩
          exact post_text_ne _ _ _ _ (third_char_ne _ _ _ 'T' 'H' rfl hh2 (by decide))
        · rw [handleMessage_uris env now s ev hperm hcmd htrig hm (by omega)]
          refine ⟨rfl, hset _, ?_⟩
          simp only
          rw [List.append_assoc ("<@".toList ++ ev.User)]
          exact post_text_ne _ _ _ _ (third_char_ne _ _ _ 'I' 'H' rfl hh2 (by decide))

/-! ## Theorem on the commands -/

/-- C18: a text that equals `help`, `yes` or `no` up to letter case is
handled exactly as the lower-case command; a text in which such a word is
surrounded by other characters is not a command: handling it queues
nothing, removes no entry from the store and does not send the help
text. -/
theorem command_whole_text (env : Env) (now : Nat) (s : State) (u c : Str) :
    (∀ text cmd, (cmd = "help".toList ∨ cmd = "yes".toList ∨ cmd = "no".toList) →
      toLower text = cmd →
      handleMessage env now s { User := u, Channel := c, Text := text }
        = handleMessage env now s { User := u, Channel := c, Text := cmd })
    ∧ (∀ a w b, isCommand w = true → (a ≠ [] ∨ b ≠ []) →
      isCommand (a ++ w ++ b) = false
      ∧ (handleMessage env now s { User := u, Channel := c, Text := a ++ w ++ b }).cacheQueue
          = s.cacheQueue
      ∧ (∀ v p, s.clearPending v = some p →
          ∃ q, (handleMessage env now s
            { User := u, Channel := c, Text := a ++ w ++ b }).clearPending v = some q)
      ∧ (handleMessage env now s { User := u, Channel := c, Text := a ++ w ++ b }).effects
          ≠ s.effects ++ [Effect.post c ("<@".toList ++ u ++ "> ".toList ++ helpMessage)]) := by
  constructor
  · intro text cmd hcmd htext
    have hl : toLower cmd = cmd := by
      rcases hcmd with rfl | rfl | rfl <;> decide
    unfold handleMessage
    simp only [htext, hl]
    rcases hcmd with rfl | rfl | rfl
    · simp only [if_true]
    · have hh : ¬ "yes".toList = "help".toList := by decide
      simp only [if_neg hh, if_true]
    · have hh : ¬ "no".toList = "help".toList := by decide
      have hy : ¬ "no".toList = "yes".toList := by decide
      simp only [if_neg hh, if_neg hy, if_true]
  · intro a w b hw hab
    have hc := isCommand_surrounded a w b hw hab
    exact ⟨hc, handleMessage_not_command env now s
      { User := u, Channel := c, Text := a ++ w ++ b } hc⟩

/-- Witness for C18: `YES` confirms like `yes`, and ` yes` does not
confirm. -/
theorem command_whole_text_witness :
    handleMessage limitEnv 4 stateU2
        { User := "U2".toList, Channel := "C2".toList, Text := "YES".toList }
      = handleMessage limitEnv 4 stateU2
        { User := "U2".toList, Channel := "C2".toList, Text := "yes".toList }
    ∧ (handleMessage limitEnv 4 stateU2
        { User := "U2".toList, Channel := "C2".toList,
          Text := " ".toList ++ "yes".toList ++ [] }).cacheQueue = stateU2.cacheQueue :=
  ⟨(command_whole_text limitEnv 4 stateU2 "U2".toList "C2".toList).1 "YES".toList
      "yes".toList (Or.inr (Or.inl rfl)) (by decide),
   ((command_whole_text limitEnv 4 stateU2 "U2".toList "C2".toList).2 " ".toList
      "yes".toList [] (by decide) (Or.inl (by decide))).2.1⟩

/-! ## Lemmas on tokens and gaps -/

theorem noSlash_mem (g : Str) (h : noSlash g = true) : ∀ c ∈ g, (!(decide (c = '/'))) = true := by
  unfold noSlash at h
  exact List.all_eq_true.1 h

theorem noSlash_not_mem (g : Str) (h : noSlash g = true) : '/' ∉ g := by
  intro hm
  have h1 := noSlash_mem g h '/' hm
  simp at h1

theorem noSlash_cons (c : Char) (g : Str) (h : noSlash (c :: g) = true) :
    c ≠ '/' ∧ noSlash g = true := by
  unfold noSlash at h ⊢
  simp only [List.all_cons, Bool.and_eq_true, Bool.not_eq_true', decide_eq_false_iff_not] at h
  exact ⟨h.1, h.2⟩

theorem endsWithSpace_mem (g : Str) (h : endsWithSpace g = true) :
    ∃ c, c ∈ g ∧ isSpace c = true := by
  unfold endsWithSpace at h
  split at h
  · rename_i c hc
    exact ⟨c, List.mem_of_getLast?_eq_some hc, h⟩
  · cases h

theorem endsWithSpace_tail (c : Char) (g : Str) (h : endsWithSpace (c :: g) = true)
    (hg : g ≠ []) : endsWithSpace g = true := by
  cases g with
  | nil => exact absurd rfl hg
  | cons d t =>
    unfold endsWithSpace at h ⊢
    rw [List.getLast?_cons_cons] at h
    exact h

theorem startsWithSpace_stop (rest : Str) (h : rest = [] ∨ startsWithSpace rest = true) :
    rest.takeWhile isPathChar = [] ∧ rest.dropWhile isPathChar = rest := by
  cases rest with
  | nil => exact ⟨rfl, rfl⟩
  | cons c t =>
    rcases h with h | h
    · cases h
    · have hc : isSpace c = true := h
      have hp : isPathChar c = false := by
        unfold isPathChar
        rw [hc]
        rfl
      simp [List.takeWhile, List.dropWhile, hp]

theorem matchPath_token (p rest : Str) (hp : p.all isPathChar = true)
    (hstop : rest = [] ∨ startsWithSpace rest = true) :
    matchPath ('/' :: (p ++ rest)) = some ('/' :: p, rest) := by
  have hall : ∀ c ∈ p, isPathChar c = true := List.all_eq_true.1 hp
  obtain ⟨h1, h2⟩ := startsWithSpace_stop rest hstop
  rw [matchPath_cons_slash, List.takeWhile_append_of_pos hall,
    List.dropWhile_append_of_pos hall, h1, h2, List.append_nil]

theorem matchLit_some (lit s r : Str) (h : matchLit lit s = some r) : s = lit ++ r := by
  unfold matchLit at h
  split at h
  · rename_i hp
    cases h
    obtain ⟨t, ht⟩ := List.isPrefixOf_iff_prefix.1 hp
    rw [← ht, List.drop_left]
  · cases h

theorem matchLit_append (lit r : Str) : matchLit lit (lit ++ r) = some r := by
  unfold matchLit
  rw [if_pos (List.isPrefixOf_iff_prefix.2 (List.prefix_append _ _)), List.drop_left]

theorem skipS_cases (r : Str) : skipS r = r ∨ r = 's' :: skipS r := by
  unfold skipS
  split
  · exact Or.inr rfl
  · exact Or.inl rfl

theorem matchHost_form (s r : Str) (h : matchHost s = some r) :
    ∃ pre post, s = pre ++ '/' :: post ∧ (pre = "http:".toList ∨ pre = "https:".toList) := by
  unfold matchHost at h
  split at h
  · cases h
  · rename_i r1 h1
    split at h
    · cases h
    · rename_i r2 h2
      have e1 := matchLit_some _ _ _ h1
      have e2 := matchLit_some _ _ _ h2
      rcases skipS_cases r1 with hs | hs
      · rw [hs] at e2
        exact ⟨"http:".toList, '/' :: r2, by rw [e1, e2]; rfl, Or.inl rfl⟩
      · rw [e2] at hs
        exact ⟨"https:".toList, '/' :: r2, by rw [e1, hs]; rfl, Or.inr rfl⟩

theorem matchHost_gap (g rest : Str) (hg : noSlash g = true) (he : endsWithSpace g = true) :
    matchHost (g ++ rest) = none := by
  cases hm : matchHost (g ++ rest) with
  | none => rfl
  | some r =>
    exfalso
    obtain ⟨pre, post, hs, hpre⟩ := matchHost_form _ _ hm
    obtain ⟨c, hc, hsp⟩ := endsWithSpace_mem g he
    have h1 : (g ++ rest).takeWhile (fun c => !(decide (c = '/')))
        = g ++ rest.takeWhile (fun c => !(decide (c = '/'))) :=
      List.takeWhile_append_of_pos (noSlash_mem g hg)
    have h2 : (pre ++ '/' :: post).takeWhile (fun c => !(decide (c = '/'))) = pre := by
      rcases hpre with rfl | rfl
      · rfl
      · rfl
    rw [hs, h2] at h1
    have hcpre : c ∈ pre := by
      rw [h1]
      exact List.mem_append_left _ hc
    rcases hpre with rfl | rfl
    · have hno : ∀ d ∈ "http:".toList, isSpace d = false := by decide
      rw [hno c hcpre] at hsp
      cases hsp
    · have hno : ∀ d ∈ "https:".toList, isSpace d = false := by decide
      rw [hno c hcpre] at hsp
      cases hsp

theorem matchPath_not_slash (c : Char) (t : Str) (h : c ≠ '/') : matchPath (c :: t) = none := by
  cases hm : matchPath (c :: t) with
  | none => rfl
  | some r =>
    unfold matchPath at hm
    split at hm
    · rename_i t2 heq
      cases heq
      exact absurd rfl h
    · cases hm

theorem findFirst_cons_none (c : Char) (cs : Str) (h : matchHere (c :: cs) = none) :
    findFirst (c :: cs) = findFirst cs := by
  rw [findFirst, h]

theorem findFirst_cons_some (c : Char) (cs cap rest : Str)
    (h : matchHere (c :: cs) = some (cap, rest)) :
    findFirst (c :: cs)
      = some ([(c :: cs).take ((c :: cs).length - rest.length), cap], rest) := by
  rw [findFirst, h]

theorem findFirst_gap (g rest : Str) (hg : noSlash g = true)
    (he : g = [] ∨ endsWithSpace g = true) : findFirst (g ++ rest) = findFirst rest := by
  induction g with
  | nil => rfl
  | cons c g ih =>
    obtain ⟨hc, hg2⟩ := noSlash_cons c g hg
    have hend : endsWithSpace (c :: g) = true := by
      rcases he with he | he
      · cases he
      · exact he
    have hhost : matchHost (c :: g ++ rest) = none := matchHost_gap (c :: g) rest hg hend
    have hhere : matchHere (c :: (g ++ rest)) = none := by
      unfold matchHere
      have hh : matchHost (c :: (g ++ rest)) = none := hhost
      rw [hh]
      exact matchPath_not_slash c _ hc
    have hstep : findFirst (c :: g ++ rest) = findFirst (g ++ rest) :=
      findFirst_cons_none c (g ++ rest) hhere
    rw [hstep]
    apply ih hg2
    by_cases hnil : g = []
    · exact Or.inl hnil
    · exact Or.inr (endsWithSpace_tail c g hend hnil)

theorem matchHost_slash (t : Str) : matchHost ('/' :: t) = none := by
  have h : matchLit "http".toList ('/' :: t) = none := rfl
  unfold matchHost
  rw [h]

theorem matchHost_url (secure : Bool) (host tail : Str) (hne : host ≠ [])
    (hh : ∀ c ∈ host, isHostChar c = true) :
    matchHost ((if secure then "https://".toList else "http://".toList) ++ host ++ '/' :: tail)
      = some ('/' :: tail) := by
  have hlit : matchLit "://".toList ("://".toList ++ (host ++ '/' :: tail))
      = some (host ++ '/' :: tail) := matchLit_append _ _
  have htake : (host ++ '/' :: tail).takeWhile isHostChar = host := by
    rw [List.takeWhile_append_of_pos hh]
    simp [List.takeWhile, isHostChar]
  have hdrop : (host ++ '/' :: tail).dropWhile isHostChar = '/' :: tail := by
    rw [List.dropWhile_append_of_pos hh]
    simp [List.dropWhile, isHostChar]
  cases secure with
  | false =>
    have e : (if false = true then "https://".toList else "http://".toList) ++ host ++ '/' :: tail
        = "http".toList ++ ("://".toList ++ (host ++ '/' :: tail)) := rfl
    have hs : skipS ("://".toList ++ (host ++ '/' :: tail))
        = "://".toList ++ (host ++ '/' :: tail) := rfl
    unfold matchHost
    rw [e, matchLit_append]
    simp only [hs, hlit, htake, hdrop, if_neg hne]
  | true =>
    have e : (if true = true then "https://".toList else "http://".toList) ++ host ++ '/' :: tail
        = "http".toList ++ ('s' :: ("://".toList ++ (host ++ '/' :: tail))) := rfl
    have hs : skipS ('s' :: ("://".toList ++ (host ++ '/' :: tail)))
        = "://".toList ++ (host ++ '/' :: tail) := rfl
    unfold matchHost
    rw [e, matchLit_append]
    simp only [hs, hlit, htake, hdrop, if_neg hne]

theorem matchHere_token (t : PathToken) (rest : Str) (hwf : t.wellFormed = true)
    (hstop : rest = [] ∨ startsWithSpace rest = true) :
    matchHere (t.text ++ rest) = some (t.path, rest) := by
  cases t with
  | bare p =>
    have hp : p.all isPathChar = true := hwf
    have e : (PathToken.bare p).text ++ rest = '/' :: (p ++ rest) := rfl
    rw [e]
    unfold matchHere
    rw [matchHost_slash, matchPath_token p rest hp hstop]
    rfl
  | url secure host p =>
    unfold PathToken.wellFormed at hwf
    simp only [Bool.and_eq_true, Bool.not_eq_true', List.isEmpty_eq_false, List.all_eq_true] at hwf
    obtain ⟨⟨hne, hhost⟩, hp⟩ := hwf
    have hp2 : p.all isPathChar = true := List.all_eq_true.2 hp
    have e : (PathToken.url secure host p).text ++ rest
        = (if secure then "https://".toList else "http://".toList) ++ host ++ '/' :: (p ++ rest) := by
      unfold PathToken.text
      simp only [List.append_assoc, List.cons_append]
    rw [e]
    unfold matchHere
    rw [matchHost_url secure host (p ++ rest) hne (fun c hc => (hhost c hc).1)]
    simp only [Option.bind, matchPath_token p rest hp2 hstop]
    rfl

theorem text_ne_nil (t : PathToken) : t.text ≠ [] := by
  cases t with
  | bare p => exact List.cons_ne_nil _ _
  | url secure host p =>
    cases secure with
    | false => exact List.cons_ne_nil _ _
    | true => exact List.cons_ne_nil _ _

theorem findFirst_token (t : PathToken) (rest : Str) (hwf : t.wellFormed = true)
    (hstop : rest = [] ∨ startsWithSpace rest = true) :
    findFirst (t.text ++ rest) = some ([t.text, t.path], rest) := by
  have hm := matchHere_token t rest hwf hstop
  have hne := text_ne_nil t
  cases ht : t.text with
  | nil => exact absurd ht hne
  | cons c cs =>
    rw [ht] at hm
    have hf := findFirst_cons_some c (cs ++ rest) t.path rest hm
    have htake : (c :: (cs ++ rest)).take ((c :: (cs ++ rest)).length - rest.length)
        = c :: cs := by
      have hl : (c :: (cs ++ rest)).length - rest.length = (c :: cs).length := by
        simp only [List.length_cons, List.length_append]
        omega
      rw [hl]
      exact List.take_left' rfl
    rw [htake] at hf
    exact hf

theorem tokensText_cons (t : PathToken) (g : Str) (rest : List (PathToken × Str)) :
    tokensText ((t, g) :: rest) = t.text ++ (g ++ tokensText rest) := by
  rw [tokensText, List.append_assoc]

theorem gapsOK_stop (g : Str) (items : List (PathToken × Str)) (h : gapsOK g items = true) :
    g ++ tokensText items = [] ∨ startsWithSpace (g ++ tokensText items) = true := by
  cases items with
  | nil =>
    unfold gapsOK at h
    simp only [Bool.and_eq_true, Bool.or_eq_true, List.isEmpty_iff] at h
    rcases h.2 with h2 | h2
    · left
      rw [h2]
      rfl
    · right
      cases g with
      | nil => cases h2
      | cons c t => exact h2
  | cons x rest =>
    obtain ⟨t, g2⟩ := x
    unfold gapsOK at h
    simp only [Bool.and_eq_true] at h
    right
    cases g with
    | nil => cases h.1.1.1.2
    | cons c t2 => exact h.1.1.1.2

theorem findAllFuel_nil (n : Nat) (s : Str) (h : '/' ∉ s) : findAllFuel n s = [] := by
  cases n with
  | zero => rfl
  | succ n =>
    unfold findAllFuel
    rw [findFirst_none s h]

theorem findAllFuel_gaps (items : List (PathToken × Str)) (g : Str) (n : Nat)
    (h : gapsOK g items = true) (hn : (g ++ tokensText items).length ≤ n) :
    findAllFuel n (g ++ tokensText items) = items.map (fun x => [x.1.text, x.1.path]) := by
  induction items generalizing g n with
  | nil =>
    unfold gapsOK at h
    simp only [Bool.and_eq_true] at h
    have e : g ++ tokensText [] = g := List.append_nil g
    rw [e]
    exact findAllFuel_nil n g (noSlash_not_mem g h.1)
  | cons x rest ih =>
    obtain ⟨t, g2⟩ := x
    unfold gapsOK at h
    simp only [Bool.and_eq_true] at h
    obtain ⟨⟨⟨⟨hns, _⟩, hend⟩, hwf⟩, hrest⟩ := h
    have e : tokensText ((t, g2) :: rest) = t.text ++ (g2 ++ tokensText rest) :=
      tokensText_cons t g2 rest
    rw [e] at hn ⊢
    have hfirst : findFirst (g ++ (t.text ++ (g2 ++ tokensText rest)))
        = some ([t.text, t.path], g2 ++ tokensText rest) := by
      rw [findFirst_gap g _ hns (Or.inr hend)]
      exact findFirst_token t _ hwf (gapsOK_stop g2 rest hrest)
    have hpos : 0 < t.text.length := List.length_pos.2 (text_ne_nil t)
    cases n with
    | zero =>
      simp only [List.length_append] at hn
      omega
    | succ k =>
      unfold findAllFuel
      rw [hfirst]
      simp only [List.map_cons]
      rw [ih g2 k hrest (by simp only [List.length_append] at hn ⊢; omega)]

theorem FindAllStringSubmatch_tokens (g0 : Str) (items : List (PathToken × Str))
    (h : wellDelimited g0 items = true) :
    FindAllStringSubmatch (g0 ++ tokensText items)
      = items.map (fun x => [x.1.text, x.1.path]) := by
  unfold FindAllStringSubmatch
  cases items with
  | nil =>
    have h1 : noSlash g0 = true := h
    have e : g0 ++ tokensText [] = g0 := List.append_nil g0
    rw [e]
    exact findAllFuel_nil _ g0 (noSlash_not_mem g0 h1)
  | cons x rest =>
    obtain ⟨t, g⟩ := x
    unfold wellDelimited at h
    simp only [Bool.and_eq_true, Bool.or_eq_true, List.isEmpty_iff] at h
    obtain ⟨⟨⟨hns, hend⟩, hwf⟩, hrest⟩ := h
    have e : tokensText ((t, g) :: rest) = t.text ++ (g ++ tokensText rest) :=
      tokensText_cons t g rest
    rw [e]
    have hfirst : findFirst (g0 ++ (t.text ++ (g ++ tokensText rest)))
        = some ([t.text, t.path], g ++ tokensText rest) := by
      rw [findFirst_gap g0 _ hns hend]
      exact findFirst_token t _ hwf (gapsOK_stop g rest hrest)
    have hpos : 0 < t.text.length := List.length_pos.2 (text_ne_nil t)
    cases hlen : (g0 ++ (t.text ++ (g ++ tokensText rest))).length with
    | zero =>
      simp only [List.length_append] at hlen
      omega
    | succ k =>
      unfold findAllFuel
      rw [hfirst]
      simp only [List.map_cons]
      rw [findAllFuel_gaps rest g k hrest
        (by simp only [List.length_append] at hlen ⊢; omega)]

theorem collectURIs_tokens (cfg : config) (items : List (PathToken × Str)) :
    collectURIs cfg (items.map (fun x => [x.1.text, x.1.path]))
      = derivedURIs cfg (items.map (fun x => x.1.path)) := by
  induction items with
  | nil => rfl
  | cons x rest ih =>
    simp only [List.map_cons]
    rw [collectURIs_cons, ih]
    rfl

/-! ## Theorem on the derived list -/

/-- C11: when the text is made of whitespace-delimited tokens whose
path-like tokens, in order, are t1..tn, each a bare path or a URL
`http(s)://host/path` without `|`, `>`, `?`, the matches of `re` are exactly
these tokens with their `/path` portion as group 1, the derived URI list is
`filesFromURI(p1) ++ ... ++ filesFromURI(pn)` in encounter order with
duplicates kept, and this list is what the handler stores for a permitted
sender when it has at most 30 entries. -/
theorem derived_list (env : Env) (g0 : Str) (items : List (PathToken × Str))
    (h : wellDelimited g0 items = true) :
    FindAllStringSubmatch (g0 ++ tokensText items)
        = items.map (fun x => [x.1.text, x.1.path])
    ∧ collectURIs env.cfg (FindAllStringSubmatch (g0 ++ tokensText items))
        = derivedURIs env.cfg (items.map (fun x => x.1.path))
    ∧ (∀ now s ev, permitted env ev → ev.Text = g0 ++ tokensText items →
        contains ev.Text (trigger env.cfg) = true → items ≠ [] →
        (derivedURIs env.cfg (items.map (fun x => x.1.path))).length ≤ 30 →
        (handleMessage env now s ev).clearPending ev.User
          = some { Everything := false,
                   URIs := derivedURIs env.cfg (items.map (fun x => x.1.path)),
                   Created := now, User := ev.User, Channel := ev.Channel }) := by
  have hfind := FindAllStringSubmatch_tokens g0 items h
  have hcol : collectURIs env.cfg (FindAllStringSubmatch (g0 ++ tokensText items))
      = derivedURIs env.cfg (items.map (fun x => x.1.path)) := by
    rw [hfind, collectURIs_tokens]
  refine ⟨hfind, hcol, ?_⟩
  intro now s ev hperm htext htrig hne hlen
  have hm : FindAllStringSubmatch ev.Text ≠ [] := by
    rw [htext, hfind]
    intro hnil
    exact hne (List.map_eq_nil_iff.1 hnil)
  have hslash : '/' ∈ ev.Text := by
    by_contra hc
    exact hm ((FindAllStringSubmatch_eq_nil_iff _).2 hc)
  have hcmd := isCommand_of_slash _ hslash
  have hcol2 : collectURIs env.cfg (FindAllStringSubmatch ev.Text)
      = derivedURIs env.cfg (items.map (fun x => x.1.path)) := by
    rw [htext]
    exact hcol
  rw [handleMessage_uris env now s ev hperm hcmd htrig hm (by rw [hcol2]; exact hlen)]
  simp only
  rw [setPending_same, hcol2]

/-- Witness for C11: `clear cache for /x and /y` derives
`filesFromURI("/x") ++ filesFromURI("/y")`. -/
theorem derived_list_witness :
    collectURIs exampleEnv.cfg (FindAllStringSubmatch "clear cache for /x and /y".toList)
      = filesFromURI exampleCfg "/x".toList ++ filesFromURI exampleCfg "/y".toList :=
  ((derived_list exampleEnv "clear cache for ".toList tokensXY (by decide)).2.1).trans
    (by decide)

/-! ## Lemmas on the stripping of bases -/

end Cachebot
